import Mathlib

/-!
Verification development for the zrx dependency-graph engine.

The graph core is embedded shallowly: adjacency lists are `List (List Nat)`,
hash sets appear as duplicate-free `List Nat` (only membership is used by the
algorithms), `VecDeque` queues are lists with the head at the front, and the
lazy Rust iterators are embedded as fuelled state machines whose drained
output is analysed.
-/

namespace Zrx

/-! ## Reachability over a successor function

All graph-like objects in the repository (compiled adjacency, builder edge
lists) expose "successors of a node"; reachability theory is developed once
over an arbitrary successor function `sf`. -/

/-- `RIn sf u v k`: `v` is reachable from `u` in exactly `k` steps along `sf`. -/
inductive RIn (sf : Nat → List Nat) : Nat → Nat → Nat → Prop
  | refl (u : Nat) : RIn sf u u 0
  | head {u y v k : Nat} : y ∈ sf u → RIn sf y v k → RIn sf u v (k + 1)

/-- Reachability in any number of steps. -/
def Reach (sf : Nat → List Nat) (u v : Nat) : Prop :=
  ∃ k, RIn sf u v k

/-- Acyclicity: no node reaches itself in one or more steps. -/
def AcyclicS (sf : Nat → List Nat) : Prop :=
  ∀ n k, ¬ RIn sf n n (k + 1)

/-- All successors are below the bound `N`. -/
def BndS (sf : Nat → List Nat) (N : Nat) : Prop :=
  ∀ x, ∀ y ∈ sf x, y < N

theorem RIn.rank_le {sf : Nat → List Nat} {r : Nat → Nat}
    (h : ∀ x, ∀ y ∈ sf x, r x < r y) :
    ∀ {u v k : Nat}, RIn sf u v k → r u + k ≤ r v := by
  intro u v k hr
  induction hr with
  | refl u => omega
  | head hy _ ih => have := h _ _ hy; omega

/-- A rank function that strictly increases along edges certifies acyclicity;
used to discharge acyclicity for concrete graphs. -/
theorem acyclicS_of_rank {sf : Nat → List Nat} (r : Nat → Nat)
    (h : ∀ x, ∀ y ∈ sf x, r x < r y) : AcyclicS sf := by
  intro n k hr
  have := RIn.rank_le h hr
  omega

theorem RIn.trans {sf : Nat → List Nat} {u v w j k : Nat}
    (h1 : RIn sf u v j) (h2 : RIn sf v w k) : RIn sf u w (j + k) := by
  induction h1 with
  | refl u => simpa using h2
  | head hy _ ih =>
      have h3 := RIn.head hy (ih h2)
      simpa [Nat.add_right_comm] using h3

/-- Append one step at the end of a reachability chain. -/
theorem RIn.snoc {sf : Nat → List Nat} {u v w k : Nat}
    (h1 : RIn sf u v k) (h2 : w ∈ sf v) : RIn sf u w (k + 1) :=
  RIn.trans h1 (RIn.head h2 (RIn.refl w))

/-- Decompose the last step of a nonempty reachability chain. -/
theorem RIn.unsnoc {sf : Nat → List Nat} :
    ∀ {u v k : Nat}, RIn sf u v (k + 1) → ∃ z, RIn sf u z k ∧ v ∈ sf z := by
  intro u v k
  induction k generalizing u with
  | zero =>
      rintro (_ | ⟨hy, hr⟩)
      rcases hr with _ | _
      exact ⟨u, RIn.refl u, by assumption⟩
  | succ k ih =>
      rintro (_ | ⟨hy, hr⟩)
      obtain ⟨z, hz, hw⟩ := ih hr
      exact ⟨z, RIn.head hy hz, hw⟩

/-- Fuelled boolean reachability probe (depth-first over `sf`). -/
def rchB (sf : Nat → List Nat) : Nat → Nat → Nat → Bool
  | 0, u, v => u == v
  | f + 1, u, v => u == v || (sf u).any fun y => rchB sf f y v

theorem rchB_sound {sf : Nat → List Nat} :
    ∀ {f u v : Nat}, rchB sf f u v = true → ∃ k, k ≤ f ∧ RIn sf u v k := by
  intro f
  induction f with
  | zero =>
      intro u v h
      simp only [rchB, beq_iff_eq] at h
      exact ⟨0, Nat.le_refl 0, h ▸ RIn.refl u⟩
  | succ f ih =>
      intro u v h
      simp only [rchB, Bool.or_eq_true, beq_iff_eq, List.any_eq_true] at h
      rcases h with h | ⟨y, hy, hr⟩
      · exact ⟨0, Nat.zero_le _, h ▸ RIn.refl u⟩
      · obtain ⟨k, hk, hkr⟩ := ih hr
        exact ⟨k + 1, Nat.succ_le_succ hk, RIn.head hy hkr⟩

theorem rchB_complete {sf : Nat → List Nat} :
    ∀ {k u v : Nat}, RIn sf u v k → ∀ {f : Nat}, k ≤ f → rchB sf f u v = true := by
  intro k u v h
  induction h with
  | refl u =>
      intro f _
      cases f <;> simp [rchB]
  | head hy _ ih =>
      intro f hf
      match f, hf with
      | f + 1, hf =>
          simp only [rchB, Bool.or_eq_true, List.any_eq_true]
          exact Or.inr ⟨_, hy, ih (Nat.le_of_succ_le_succ hf)⟩

/-! ## Walks as lists -/

/-- A walk: consecutive elements are joined by `sf`-edges. -/
def IsWalk (sf : Nat → List Nat) (p : List Nat) : Prop :=
  List.Chain' (fun a b => b ∈ sf a) p

theorem rin_of_walk {sf : Nat → List Nat} :
    ∀ {p : List Nat} {s t : Nat}, IsWalk sf p → p.head? = some s →
      p.getLast? = some t → RIn sf s t (p.length - 1) := by
  intro p
  induction p with
  | nil => intro s t _ h; simp at h
  | cons a q ih =>
      intro s t hw hh hl
      simp only [List.head?_cons, Option.some_inj] at hh
      subst hh
      match q, hw, hl with
      | [], _, hl =>
          simp only [List.getLast?_singleton, Option.some_inj] at hl
          subst hl
          exact RIn.refl a
      | b :: q, hw, hl =>
          have hw' : IsWalk sf (b :: q) := (List.chain'_cons.mp hw).2
          have he : b ∈ sf a := (List.chain'_cons.mp hw).1
          have hl' : (b :: q).getLast? = some t := by
            rw [← hl]; simp [List.getLast?_cons_cons]
          have h1 := @ih b t hw' rfl hl'
          have h2 := RIn.head he h1
          simpa [Nat.succ_sub_one] using h2

theorem walk_of_rin {sf : Nat → List Nat} {s t k : Nat} (h : RIn sf s t k) :
    ∃ p : List Nat, IsWalk sf p ∧ p.head? = some s ∧ p.getLast? = some t ∧
      p.length = k + 1 := by
  induction h with
  | refl u => exact ⟨[u], by simp [IsWalk], by simp, by simp, by simp⟩
  | head hy _ ih =>
      obtain ⟨p, hw, hh, hl, hlen⟩ := ih
      match p, hh with
      | b :: q, hh =>
          simp only [List.head?_cons, Option.some_inj] at hh
          subst hh
          refine ⟨_ :: _ :: q, List.chain'_cons.mpr ⟨hy, hw⟩, by simp, ?_, by simpa using hlen⟩
          simpa [List.getLast?_cons_cons] using hl

theorem walk_nodup {sf : Nat → List Nat} (hacy : AcyclicS sf) :
    ∀ {p : List Nat}, IsWalk sf p → p.Nodup := by
  intro p
  induction p with
  | nil => intro _; simp
  | cons a q ih =>
      intro hw
      have hq : IsWalk sf q := hw.tail
      refine List.nodup_cons.mpr ⟨?_, ih hq⟩
      intro hmem
      obtain ⟨ys, zs, hsplit⟩ := List.append_of_mem hmem
      subst hsplit
      have hw2 : IsWalk sf (((a :: ys) ++ [a]) ++ zs) := by
        simpa using hw
      have hw3 : IsWalk sf ((a :: ys) ++ [a]) :=
        (List.chain'_append.mp hw2).1
      have hr := @rin_of_walk sf ((a :: ys) ++ [a]) a a hw3 (by simp)
        (by simpa using List.getLast?_concat (a :: ys))
      have hlen : ((a :: ys) ++ [a]).length - 1 = ys.length + 1 := by
        simp
      rw [hlen] at hr
      exact hacy a ys.length hr

theorem walk_mem_lt {sf : Nat → List Nat} {N : Nat} (hb : BndS sf N) :
    ∀ {p : List Nat} {s : Nat}, IsWalk sf p → p.head? = some s → s < N →
      ∀ x ∈ p, x < N := by
  intro p
  induction p with
  | nil => intro s _ _ _ x hx; simp at hx
  | cons a q ih =>
      intro s hw hh hs x hx
      simp only [List.head?_cons, Option.some_inj] at hh
      subst hh
      rcases List.mem_cons.mp hx with rfl | hx
      · exact hs
      · match q, hw, hx with
        | b :: q, hw, hx =>
            have he : b ∈ sf a := (List.chain'_cons.mp hw).1
            have hbN : b < N := hb a b he
            exact @ih b hw.tail rfl hbN x hx

theorem nodup_lt_length_le {p : List Nat} {N : Nat} (hnd : p.Nodup)
    (hlt : ∀ x ∈ p, x < N) : p.length ≤ N := by
  have h1 : p.toFinset.card = p.length := List.toFinset_card_of_nodup hnd
  have h2 : p.toFinset ⊆ Finset.range N := by
    intro x hx
    exact Finset.mem_range.mpr (hlt x (List.mem_toFinset.mp hx))
  have h3 := Finset.card_le_card h2
  rw [h1, Finset.card_range] at h3
  exact h3

/-- In an acyclic bounded graph, every reachability chain from an in-bounds
node has fewer than `N` steps. -/
theorem rin_lt_of_acyclic {sf : Nat → List Nat} {N s t k : Nat}
    (hacy : AcyclicS sf) (hb : BndS sf N) (hs : s < N)
    (hr : RIn sf s t k) : k < N := by
  obtain ⟨p, hw, hh, _, hlen⟩ := walk_of_rin hr
  have hnd := walk_nodup hacy hw
  have hlt := walk_mem_lt hb hw hh hs
  have := nodup_lt_length_le hnd hlt
  omega

/-- The fuelled probe with fuel `N` decides reachability on acyclic graphs. -/
theorem reach_iff_rchB {sf : Nat → List Nat} {N s t : Nat}
    (hacy : AcyclicS sf) (hb : BndS sf N) (hs : s < N) :
    Reach sf s t ↔ rchB sf N s t = true := by
  constructor
  · rintro ⟨k, hk⟩
    exact rchB_complete hk (Nat.le_of_lt (rin_lt_of_acyclic hacy hb hs hk))
  · intro h
    obtain ⟨k, _, hk⟩ := rchB_sound h
    exact ⟨k, hk⟩

/-! ## The compiled graph representation

`Topology` mirrors `zrx-graph/src/graph/topology.rs`: shared outgoing and
incoming adjacency plus a distance matrix.  The `Adjacency` and `Distance`
sources are not under `src/`; per the spec they are, respectively, the map
from node index to the ordered list of neighbours (edge-insertion order) and
an all-pairs optional-hop-count table.  `Graph` mirrors `graph.rs`: per-node
payload data paired with a topology. -/

structure Topology where
  outgoing : List (List Nat)
  incoming : List (List Nat)
  distance : List (List (Option Nat))
deriving DecidableEq

structure Graph (T : Type) where
  data : List T
  topology : Topology

/-- Number of nodes (`Graph::len`). -/
def Graph.len {T : Type} (g : Graph T) : Nat := g.data.length

/-- Outgoing neighbours of a node, in edge-insertion order. -/
def Graph.out {T : Type} (g : Graph T) (u : Nat) : List Nat :=
  g.topology.outgoing.getD u []

/-- Incoming neighbours of a node, in edge-insertion order. -/
def Graph.inc {T : Type} (g : Graph T) (u : Nat) : List Nat :=
  g.topology.incoming.getD u []

/-- Well-formedness of a built graph: tables sized to the node count, all
neighbour indices in bounds, duplicate-free adjacency rows (the builder
coalesces repeated edges), and incoming/outgoing exact transposes. -/
structure WF {T : Type} (g : Graph T) : Prop where
  out_len : g.topology.outgoing.length = g.len
  inc_len : g.topology.incoming.length = g.len
  out_bnd : ∀ u, ∀ v ∈ g.out u, v < g.len
  inc_bnd : ∀ u, ∀ v ∈ g.inc u, v < g.len
  out_nodup : ∀ u, (g.out u).Nodup
  inc_nodup : ∀ u, (g.inc u).Nodup
  transpose : ∀ u v, v ∈ g.out u ↔ u ∈ g.inc v

/-- A built graph is guaranteed acyclic (topology invariant). -/
def Acyclic {T : Type} (g : Graph T) : Prop :=
  AcyclicS g.out

/-- Decidable well-formedness check used to establish `WF` on concrete
graphs: all quantifiers bounded by the node count. -/
abbrev wfCheck {T : Type} (g : Graph T) : Prop :=
  g.topology.outgoing.length = g.len ∧
  g.topology.incoming.length = g.len ∧
  (∀ u < g.len, ∀ v ∈ g.out u, v < g.len) ∧
  (∀ u < g.len, ∀ v ∈ g.inc u, v < g.len) ∧
  (∀ u < g.len, (g.out u).Nodup) ∧
  (∀ u < g.len, (g.inc u).Nodup) ∧
  (∀ u < g.len, ∀ v < g.len, (v ∈ g.out u ↔ u ∈ g.inc v))

theorem Graph.out_eq_nil_of_ge {T : Type} {g : Graph T} {u : Nat}
    (hlen : g.topology.outgoing.length = g.len) (h : g.len ≤ u) :
    g.out u = [] := by
  unfold Graph.out
  exact List.getD_eq_default _ _ (by omega)

theorem Graph.inc_eq_nil_of_ge {T : Type} {g : Graph T} {u : Nat}
    (hlen : g.topology.incoming.length = g.len) (h : g.len ≤ u) :
    g.inc u = [] := by
  unfold Graph.inc
  exact List.getD_eq_default _ _ (by omega)

theorem wf_of_wfCheck {T : Type} {g : Graph T} (h : wfCheck g) : WF g := by
  obtain ⟨h1, h2, h3, h4, h5, h6, h7⟩ := h
  have hout : ∀ u, g.len ≤ u → g.out u = [] := fun u hu =>
    Graph.out_eq_nil_of_ge h1 hu
  have hinc : ∀ u, g.len ≤ u → g.inc u = [] := fun u hu =>
    Graph.inc_eq_nil_of_ge h2 hu
  refine ⟨h1, h2, ?_, ?_, ?_, ?_, ?_⟩
  · intro u v hv
    by_cases hu : u < g.len
    · exact h3 u hu v hv
    · rw [hout u (by omega)] at hv; simp at hv
  · intro u v hv
    by_cases hu : u < g.len
    · exact h4 u hu v hv
    · rw [hinc u (by omega)] at hv; simp at hv
  · intro u
    by_cases hu : u < g.len
    · exact h5 u hu
    · rw [hout u (by omega)]; simp
  · intro u
    by_cases hu : u < g.len
    · exact h6 u hu
    · rw [hinc u (by omega)]; simp
  · intro u v
    by_cases hu : u < g.len
    · by_cases hv : v < g.len
      · exact h7 u hu v hv
      · constructor
        · intro hmem
          exact absurd (h3 u hu v hmem) (by omega)
        · intro hmem
          rw [hinc v (by omega)] at hmem; simp at hmem
    · constructor
      · intro hmem
        rw [hout u (by omega)] at hmem; simp at hmem
      · intro hmem
        by_cases hv : v < g.len
        · exact absurd (h4 v hv u hmem) (by omega)
        · rw [hinc v (by omega)] at hmem; simp at hmem

theorem wf_bndS_out {T : Type} {g : Graph T} (h : WF g) : BndS g.out g.len :=
  h.out_bnd

/-! ## Claim C9 — indexed payload access

`Index::index` / `IndexMut::index_mut` in `graph.rs` are `&self.data[index]`
and `&mut self.data[index]`: a `Vec` index that panics when out of bounds.
The panic is embedded as `none`; a successful access as `some`. -/

/-- `graph[i]` (shared access): `some` payload, or `none` for the
out-of-bounds panic. -/
def Graph.index? {T : Type} (g : Graph T) (i : Nat) : Option T :=
  g.data.get? i

/-- `graph[i] = x` (mutable access followed by a store): `some` updated
graph, or `none` for the out-of-bounds panic. -/
def Graph.indexSet? {T : Type} (g : Graph T) (i : Nat) (x : T) :
    Option (Graph T) :=
  match g.data.get? i with
  | some _ => some ⟨g.data.set i x, g.topology⟩
  | none => none

/-- Claim C9: for a graph with `n` nodes, indexed payload access (shared or
mutable) with `i ≥ n` is the fatal abrupt stop (modelled `none`), never a
recoverable value; for `i < n` the shared access returns the payload stored
at index `i`. -/
theorem index_panics_iff_oob {T : Type} (g : Graph T) (i : Nat) (x : T) :
    (g.index? i = none ↔ g.len ≤ i) ∧
    (g.indexSet? i x = none ↔ g.len ≤ i) ∧
    (∀ h : i < g.len, g.index? i = some (g.data.get ⟨i, h⟩)) := by
  refine ⟨?_, ?_, ?_⟩
  · simp [Graph.index?, Graph.len, List.get?_eq_none]
  · unfold Graph.indexSet?
    rcases hg : g.data.get? i with _ | y
    · have h0 := List.get?_eq_none.mp hg
      simpa [Graph.len] using h0
    · have hlt := (List.get?_eq_some.mp hg).1
      simp only [Graph.len]
      simp only [reduceCtorEq, false_iff, not_le]
      exact hlt
  · intro h
    simp [Graph.index?, List.get?_eq_get h]

/-- Witness for C9 at a concrete graph. -/
theorem index_panics_iff_oob_witness :
    (Graph.index? ⟨[7, 8], ⟨[[]], [[]], [[]]⟩⟩ 5 = none ↔ (2 : Nat) ≤ 5) ∧
    (Graph.indexSet? ⟨[7, 8], ⟨[[]], [[]], [[]]⟩⟩ 5 9 = none ↔ (2 : Nat) ≤ 5) ∧
    (∀ h : 5 < Graph.len ⟨[7, 8], ⟨[[]], [[]], [[]]⟩⟩,
      Graph.index? ⟨[7, 8], ⟨[[]], [[]], [[]]⟩⟩ 5 =
        some ((⟨[7, 8], ⟨[[]], [[]], [[]]⟩⟩ : Graph Nat).data.get ⟨5, h⟩)) :=
  index_panics_iff_oob (⟨[7, 8], ⟨[[]], [[]], [[]]⟩⟩ : Graph Nat) 5 9

/-! ## Claim C10 — `Graph::map` is a payload-only transformation

`Graph::map` (`graph.rs`) maps the data vector and moves the topology
unchanged. -/

/-- `Graph::map`. -/
def Graph.map {T U : Type} (g : Graph T) (f : T → U) : Graph U :=
  ⟨g.data.map f, g.topology⟩

/-- Claim C10: `map` leaves the topology (outgoing, incoming and distance
tables) unchanged, preserves the node count, and maps each payload slot
through `f`. -/
theorem map_frame {T U : Type} (g : Graph T) (f : T → U) :
    (g.map f).topology.outgoing = g.topology.outgoing ∧
    (g.map f).topology.incoming = g.topology.incoming ∧
    (g.map f).topology.distance = g.topology.distance ∧
    (g.map f).len = g.len ∧
    (∀ i : Nat, (g.map f).index? i = (g.index? i).map f) := by
  refine ⟨rfl, rfl, rfl, by simp [Graph.map, Graph.len], ?_⟩
  intro i
  simp [Graph.map, Graph.index?, List.get?_map]

/-! ## Claim C1 — the `Ancestors` visitor

Embedding of `Ancestors::next` from `visitor/ancestor.rs` (the variant
`graph.rs` and `algorithm/ancestor.rs` use via `Ancestors::new`): pop a node
from the stack; scan its incoming list for the first not-yet-visited
ancestor; if found, mark it visited, push it, and yield it — the popped node
is not re-pushed, so its remaining incoming neighbours are dropped. -/

/-- One `Ancestors::next` call: returns the yielded ancestor together with
the updated stack (head = top) and visited set. -/
def ancestorsNext (inc : Nat → List Nat) :
    List Nat → List Nat → Option (Nat × List Nat × List Nat)
  | [], _ => none
  | node :: rest, visited =>
    match (inc node).find? (fun a => !visited.contains a) with
    | some a => some (a, a :: rest, a :: visited)
    | none => ancestorsNext inc rest visited

/-- Drain of the `Ancestors` iterator (outputs in yield order). -/
def ancestorsRun (inc : Nat → List Nat) :
    Nat → List Nat → List Nat → List Nat
  | 0, _, _ => []
  | f + 1, stack, visited =>
    match ancestorsNext inc stack visited with
    | none => []
    | some (a, stack', visited') => a :: ancestorsRun inc f stack' visited'

/-- All nodes yielded by `graph.ancestors(node)` when drained. -/
def Graph.ancestorsList {T : Type} (g : Graph T) (node : Nat) : List Nat :=
  ancestorsRun g.inc (g.len + 1) [node] []

/-- Acyclicity for a concrete graph via a rank function with only bounded
checks left to decide. -/
theorem acyclic_of_rank_check {T : Type} (g : Graph T) (r : Nat → Nat)
    (hlen : g.topology.outgoing.length = g.len)
    (h : ∀ x < g.len, ∀ y ∈ g.out x, r x < r y) : Acyclic g := by
  apply acyclicS_of_rank r
  intro x y hy
  by_cases hx : x < g.len
  · exact h x hx y hy
  · rw [Graph.out_eq_nil_of_ge hlen (by omega)] at hy
    simp at hy

/-- The graph with three nodes and edges `0 → 2`, `1 → 2` (a diamond top),
built without error: both `0` and `1` are ancestors of `2`. -/
def gDiamondTop : Graph Unit :=
  ⟨[(), (), ()], ⟨[[2], [2], []], [[], [], [0, 1]], []⟩⟩

/-- Claim C1 fails on the code: on the well-formed acyclic graph with edges
`0 → 2` and `1 → 2`, node `1` reaches `2` yet the drained `ancestors(2)`
iterator yields only `[0]` — after yielding `0` the visitor never returns to
the remaining incoming neighbours of `2`. -/
theorem ancestors_misses_reachable_node :
    WF gDiamondTop ∧ Acyclic gDiamondTop ∧
    Reach gDiamondTop.out 1 2 ∧ (1 : Nat) ≠ 2 ∧
    gDiamondTop.ancestorsList 2 = [0] ∧
    1 ∉ gDiamondTop.ancestorsList 2 := by
  refine ⟨wf_of_wfCheck (by decide), ?_, ⟨1, ?_⟩, by decide, by decide, by decide⟩
  · exact acyclic_of_rank_check gDiamondTop (fun n => n) (by decide) (by decide)
  · exact RIn.head (by decide) (RIn.refl 2)

/-! ## `shortest_path_length` — embedding of `algorithm/path.rs`

Breadth-first search over outgoing adjacency: a FIFO queue of
`(node, length)` pairs (head = front, push at the back) and a visited set.
The source node is enqueued unvisited; a popped node equal to the target
returns its length; otherwise its unvisited descendants are marked and
enqueued with length + 1. -/

/-- The descendant loop of one BFS round: sequentially insert each unvisited
descendant into the visited set and collect its queue entry. -/
def bfsEnqueue (visited : List Nat) (len1 : Nat) :
    List Nat → List Nat × List (Nat × Nat)
  | [] => (visited, [])
  | d :: ds =>
    if d ∈ visited then bfsEnqueue visited len1 ds
    else
      let r := bfsEnqueue (d :: visited) len1 ds
      (r.1, (d, len1) :: r.2)

/-- The BFS loop of `shortest_path_length`, fuelled. -/
def bfsRun (out : Nat → List Nat) (target : Nat) :
    Nat → List Nat → List (Nat × Nat) → Option Nat
  | 0, _, _ => none
  | _ + 1, _, [] => none
  | f + 1, visited, (node, len) :: queue =>
    if node = target then some len
    else
      let r := bfsEnqueue visited (len + 1) (out node)
      bfsRun out target f r.1 (queue ++ r.2)

/-- `shortest_path_length(graph, source, target)`.  The fuel `len + 1`
covers the at most `len` insertions plus the initial entry, so on a built
(acyclic, well-formed) graph the loop always ends by queue exhaustion or
return, never by fuel. -/
def shortest_path_length {T : Type} (g : Graph T) (source target : Nat) :
    Option Nat :=
  bfsRun g.out target (g.len + 1) [] [(source, 0)]

/-! ## `lowest_common_ancestor` — embedding of `algorithm/ancestor.rs`

Collect the drained `Ancestors` output of every given node, intersect the
sets, and pick the candidate minimising the least `shortest_path_length` to
any given node.  Hash sets are embedded as duplicate-free lists; the
intersection keeps the first operand's order (a deterministic stand-in for
the hash iteration order, which claim C6 addresses separately). -/

/-- `HashSet::intersection`, embedded on lists. -/
def listInter (a b : List Nat) : List Nat :=
  a.filter fun x => b.contains x

/-- `Iterator::min` on the collected key values: the minimum value, if any. -/
def optMin (l : List Nat) : Option Nat :=
  l.foldl
    (fun acc x =>
      match acc with
      | none => some x
      | some m => some (Nat.min m x))
    none

/-- Strict order on `Option Nat` with `none` below `some` (the `Ord` used by
Rust's `Option<usize>`). -/
def optLt : Option Nat → Option Nat → Bool
  | none, none => false
  | none, some _ => true
  | some _, none => false
  | some a, some b => a < b

/-- `Iterator::min_by_key`: first element with the minimal key. -/
def minByKey (key : Nat → Option Nat) (l : List Nat) : Option Nat :=
  l.foldl
    (fun best x =>
      match best with
      | none => some x
      | some b => if optLt (key x) (key b) then some x else best)
    none

/-- `lowest_common_ancestor(graph, nodes)`. -/
def lowest_common_ancestor {T : Type} (g : Graph T) (nodes : List Nat) :
    Option Nat :=
  if nodes.length < 2 then none
  else
    match nodes.map fun n => g.ancestorsList n with
    | [] => none
    | s :: rest =>
      minByKey
        (fun anc =>
          optMin (nodes.filterMap fun node => shortest_path_length g anc node))
        (rest.foldl listInter s)

/-- The graph with four nodes and edges `0 → 2`, `1 → 2`, `1 → 3`: node `1`
is a common ancestor of `2` and `3`. -/
def gSharedParent : Graph Unit :=
  ⟨[(), (), (), ()], ⟨[[2], [2, 3], [], []], [[], [], [0, 1], [1]], []⟩⟩

/-- Claim C5 fails on the code: on a well-formed acyclic graph where node
`1` is a common ancestor of the two given nodes `2` and `3` (so their
ancestor sets intersect), `lowest_common_ancestor` returns `none` instead of
a minimising common ancestor — the intersection is computed from the
incomplete `Ancestors` output (`ancestors(2)` yields only `[0]`). -/
theorem lca_misses_common_ancestor :
    WF gSharedParent ∧ Acyclic gSharedParent ∧
    Reach gSharedParent.out 1 2 ∧ (1 : Nat) ≠ 2 ∧
    Reach gSharedParent.out 1 3 ∧ (1 : Nat) ≠ 3 ∧
    gSharedParent.ancestorsList 2 = [0] ∧
    gSharedParent.ancestorsList 3 = [1] ∧
    lowest_common_ancestor gSharedParent [2, 3] = none := by
  refine ⟨wf_of_wfCheck (by decide), ?_, ⟨1, ?_⟩, by decide, ⟨1, ?_⟩, by decide,
    by decide, by decide, by decide⟩
  · exact acyclic_of_rank_check gSharedParent (fun n => n) (by decide) (by decide)
  · exact RIn.head (by decide) (RIn.refl 2)
  · exact RIn.head (by decide) (RIn.refl 3)

/-- Claim C8: the degenerate cases do return `none` (no input and one input
for any graph), but `none` is not limited to them — the same four-node
failing input as C5 has two nodes with intersecting ancestor sets and still
gets `none`. -/
theorem lca_none_outside_degenerate_cases :
    (∀ (T : Type) (g : Graph T), lowest_common_ancestor g [] = none) ∧
    (∀ (T : Type) (g : Graph T) (x : Nat),
      lowest_common_ancestor g [x] = none) ∧
    (WF gSharedParent ∧ Acyclic gSharedParent ∧
      Reach gSharedParent.out 1 2 ∧ (1 : Nat) ≠ 2 ∧
      Reach gSharedParent.out 1 3 ∧ (1 : Nat) ≠ 3 ∧
      lowest_common_ancestor gSharedParent [2, 3] = none) := by
  refine ⟨?_, ?_, wf_of_wfCheck (by decide), ?_, ⟨1, ?_⟩, by decide, ⟨1, ?_⟩,
    by decide, by decide⟩
  · intro T g
    simp [lowest_common_ancestor]
  · intro T g x
    simp [lowest_common_ancestor]
  · exact acyclic_of_rank_check gSharedParent (fun n => n) (by decide) (by decide)
  · exact RIn.head (by decide) (RIn.refl 2)
  · exact RIn.head (by decide) (RIn.refl 3)

/-! ## Claim C7 — correctness of `shortest_path_length`

`MinD sf s t d` is the mathematical specification: `d` is the minimum hop
count of a directed path from `s` to `t`. -/

/-- `d` is the least number of steps from `s` to `t`. -/
def MinD (sf : Nat → List Nat) (s t d : Nat) : Prop :=
  RIn sf s t d ∧ ∀ e < d, ¬ RIn sf s t e

theorem rin_zero {sf : Nat → List Nat} {u v : Nat} (h : RIn sf u v 0) :
    u = v := by
  cases h
  rfl

theorem minD_self (sf : Nat → List Nat) (s : Nat) : MinD sf s s 0 :=
  ⟨RIn.refl s, by omega⟩

theorem minD_unique {sf : Nat → List Nat} {s t d d' : Nat}
    (h : MinD sf s t d) (h' : MinD sf s t d') : d = d' := by
  rcases Nat.lt_trichotomy d d' with hlt | heq | hgt
  · exact absurd h.1 (h'.2 d hlt)
  · exact heq
  · exact absurd h'.1 (h.2 d' hgt)

/-- Every reachable node has a least distance. -/
theorem reach_minD {sf : Nat → List Nat} {s t : Nat} (h : Reach sf s t) :
    ∃ d, MinD sf s t d := by
  classical
  have hd : ∃ k, RIn sf s t k := h
  exact ⟨Nat.find hd, Nat.find_spec hd, fun e he => Nat.find_min hd he⟩

/-- A node at least distance `e + 1` has a predecessor at least distance
`e`. -/
theorem minD_pred {sf : Nat → List Nat} {s y e : Nat}
    (h : MinD sf s y (e + 1)) : ∃ z, MinD sf s z e ∧ y ∈ sf z := by
  obtain ⟨z, hz, hyz⟩ := RIn.unsnoc h.1
  obtain ⟨e', he'⟩ := reach_minD ⟨e, hz⟩
  have he'e : e' ≤ e := by
    by_contra hgt
    exact he'.2 e (by omega) hz
  have : ¬ e' < e := by
    intro hlt
    exact h.2 (e' + 1) (by omega) (RIn.snoc he'.1 hyz)
  have : e' = e := by omega
  subst this
  exact ⟨z, he', hyz⟩

/-! Characterisation of the `bfsEnqueue` loop. -/

theorem bfsEnqueue_mem_vis (l1 : Nat) :
    ∀ (ds visited : List Nat) (x : Nat),
      x ∈ (bfsEnqueue visited l1 ds).1 ↔ x ∈ visited ∨ x ∈ ds := by
  intro ds
  induction ds with
  | nil => intro visited x; simp [bfsEnqueue]
  | cons d ds ih =>
      intro visited x
      by_cases hd : d ∈ visited
      · rw [bfsEnqueue, if_pos hd, ih]
        constructor
        · rintro (h | h)
          · exact Or.inl h
          · exact Or.inr (List.mem_cons_of_mem d h)
        · rintro (h | h)
          · exact Or.inl h
          · rcases List.mem_cons.mp h with rfl | h
            · exact Or.inl hd
            · exact Or.inr h
      · rw [bfsEnqueue, if_neg hd]
        simp only []
        rw [ih]
        constructor
        · rintro (h | h)
          · rcases List.mem_cons.mp h with rfl | h
            · exact Or.inr (List.mem_cons_self x ds)
            · exact Or.inl h
          · exact Or.inr (List.mem_cons_of_mem d h)
        · rintro (h | h)
          · exact Or.inl (List.mem_cons_of_mem d h)
          · rcases List.mem_cons.mp h with rfl | h
            · exact Or.inl (List.mem_cons_self x visited)
            · exact Or.inr h

theorem bfsEnqueue_mem_q (l1 : Nat) :
    ∀ (ds visited : List Nat) (en : Nat × Nat),
      en ∈ (bfsEnqueue visited l1 ds).2 →
        en.2 = l1 ∧ en.1 ∈ ds ∧ en.1 ∉ visited := by
  intro ds
  induction ds with
  | nil => intro visited en h; simp [bfsEnqueue] at h
  | cons d ds ih =>
      intro visited en h
      by_cases hd : d ∈ visited
      · rw [bfsEnqueue, if_pos hd] at h
        obtain ⟨h1, h2, h3⟩ := ih visited en h
        exact ⟨h1, List.mem_cons_of_mem d h2, h3⟩
      · rw [bfsEnqueue, if_neg hd] at h
        simp only [List.mem_cons] at h
        rcases h with rfl | h
        · exact ⟨rfl, List.mem_cons_self d ds, hd⟩
        · obtain ⟨h1, h2, h3⟩ := ih (d :: visited) en h
          refine ⟨h1, List.mem_cons_of_mem d h2, ?_⟩
          intro hc
          exact h3 (List.mem_cons_of_mem d hc)

theorem bfsEnqueue_complete (l1 : Nat) :
    ∀ (ds visited : List Nat) (x : Nat), x ∈ ds → x ∉ visited →
      ∃ en ∈ (bfsEnqueue visited l1 ds).2, en.1 = x := by
  intro ds
  induction ds with
  | nil => intro visited x h; simp at h
  | cons d ds ih =>
      intro visited x hx hnv
      by_cases hd : d ∈ visited
      · rw [bfsEnqueue, if_pos hd]
        rcases List.mem_cons.mp hx with rfl | hx
        · exact absurd hd hnv
        · exact ih visited x hx hnv
      · rw [bfsEnqueue, if_neg hd]
        simp only []
        rcases List.mem_cons.mp hx with rfl | hx
        · exact ⟨(x, l1), List.mem_cons_self _ _, rfl⟩
        · by_cases hxd : x = d
          · subst hxd
            exact ⟨(x, l1), List.mem_cons_self _ _, rfl⟩
          · obtain ⟨en, hen, he⟩ := ih (d :: visited) x hx
              (by simp [List.mem_cons, hxd, hnv])
            exact ⟨en, List.mem_cons_of_mem _ hen, he⟩

theorem bfsEnqueue_nodup (l1 : Nat) :
    ∀ (ds visited : List Nat), visited.Nodup →
      (bfsEnqueue visited l1 ds).1.Nodup := by
  intro ds
  induction ds with
  | nil => intro visited h; simpa [bfsEnqueue] using h
  | cons d ds ih =>
      intro visited h
      by_cases hd : d ∈ visited
      · rw [bfsEnqueue, if_pos hd]
        exact ih visited h
      · rw [bfsEnqueue, if_neg hd]
        exact ih (d :: visited) (List.nodup_cons.mpr ⟨hd, h⟩)

theorem bfsEnqueue_len (l1 : Nat) :
    ∀ (ds visited : List Nat),
      (bfsEnqueue visited l1 ds).1.length =
        visited.length + (bfsEnqueue visited l1 ds).2.length := by
  intro ds
  induction ds with
  | nil => intro visited; simp [bfsEnqueue]
  | cons d ds ih =>
      intro visited
      by_cases hd : d ∈ visited
      · rw [bfsEnqueue, if_pos hd]
        exact ih visited
      · rw [bfsEnqueue, if_neg hd]
        simp only [List.length_cons]
        rw [ih (d :: visited)]
        simp
        omega

/-- Nodes discovered by the BFS: inserted into the visited set, or the
source (which is enqueued without being marked). -/
def DiscIn (s : Nat) (visited : List Nat) (x : Nat) : Prop :=
  x ∈ visited ∨ x = s

theorem discIn_mono {s x : Nat} {visited V' : List Nat}
    (hsub : ∀ a ∈ visited, a ∈ V') (h : DiscIn s visited x) :
    DiscIn s V' x := by
  rcases h with h | h
  · exact Or.inl (hsub x h)
  · exact Or.inr h

/-- Invariant of the `shortest_path_length` BFS loop. -/
structure BfsInv (sf : Nat → List Nat) (N s : Nat)
    (visited : List Nat) (queue : List (Nat × Nat)) : Prop where
  vis_nodup : visited.Nodup
  vis_lt : ∀ v ∈ visited, v < N
  vis_ns : s ∉ visited
  q_exact : ∀ en ∈ queue, MinD sf s en.1 en.2
  q_disc : ∀ en ∈ queue, DiscIn s visited en.1
  q_sorted : List.Pairwise (fun a b : Nat × Nat => a.2 ≤ b.2) queue
  q_window : ∀ en1 ∈ queue, ∀ en2 ∈ queue, en2.2 ≤ en1.2 + 1
  closed_gone : ∀ z, DiscIn s visited z → (∀ en ∈ queue, en.1 ≠ z) →
    ∀ d ∈ sf z, DiscIn s visited d
  disc_head : ∀ en0, queue.head? = some en0 → ∀ y e, MinD sf s y e →
    e ≤ en0.2 → DiscIn s visited y

/-- One non-returning BFS round preserves the invariant. -/
theorem bfsInv_step {sf : Nat → List Nat} {N s : Nat}
    (hacy : AcyclicS sf) (hb : BndS sf N)
    {visited : List Nat} {node len : Nat} {rest : List (Nat × Nat)}
    (hinv : BfsInv sf N s visited ((node, len) :: rest)) :
    BfsInv sf N s (bfsEnqueue visited (len + 1) (sf node)).1
      (rest ++ (bfsEnqueue visited (len + 1) (sf node)).2) := by
  set E := bfsEnqueue visited (len + 1) (sf node) with hE
  have hminN : MinD sf s node len :=
    hinv.q_exact (node, len) (List.mem_cons_self _ _)
  have hrest_ge : ∀ en ∈ rest, len ≤ en.2 := by
    intro en hen
    exact (List.pairwise_cons.mp hinv.q_sorted).1 en hen
  have hrest_le : ∀ en ∈ rest, en.2 ≤ len + 1 := by
    intro en hen
    exact hinv.q_window (node, len) (List.mem_cons_self _ _) en
      (List.mem_cons_of_mem _ hen)
  have hmem_vis : ∀ x, x ∈ E.1 ↔ x ∈ visited ∨ x ∈ sf node :=
    fun x => bfsEnqueue_mem_vis (len + 1) (sf node) visited x
  have hsub : ∀ a ∈ visited, a ∈ E.1 :=
    fun a ha => (hmem_vis a).mpr (Or.inl ha)
  have hs_nsf : s ∉ sf node := by
    intro hmem
    exact hacy s len (RIn.snoc hminN.1 hmem)
  have hnew_exact : ∀ d ∈ sf node, d ∉ visited → MinD sf s d (len + 1) := by
    intro d hd hdv
    refine ⟨RIn.snoc hminN.1 hd, ?_⟩
    intro e he hre
    obtain ⟨e', hm'⟩ := reach_minD ⟨e, hre⟩
    have he'e : e' ≤ e := by
      by_contra hgt
      exact hm'.2 e (by omega) hre
    have hdisc := hinv.disc_head (node, len) rfl d e' hm' (by omega)
    rcases hdisc with hdisc | hdisc
    · exact hdv hdisc
    · subst hdisc
      exact hs_nsf hd
  have hnew_q : ∀ en ∈ E.2, en.2 = len + 1 ∧ en.1 ∈ sf node ∧ en.1 ∉ visited :=
    fun en hen => bfsEnqueue_mem_q (len + 1) (sf node) visited en hen
  -- closure of processed nodes, proved first so `disc_head` can use it
  have hclosed : ∀ z, DiscIn s E.1 z → (∀ en ∈ rest ++ E.2, en.1 ≠ z) →
      ∀ d ∈ sf z, DiscIn s E.1 d := by
    intro z hz hgone
    by_cases hzold : DiscIn s visited z
    · by_cases hznode : z = node
      · subst hznode
        intro d hd
        exact Or.inl ((hmem_vis d).mpr (Or.inr hd))
      · have hgone' : ∀ en ∈ (node, len) :: rest, en.1 ≠ z := by
          intro en hen
          rcases List.mem_cons.mp hen with rfl | hen
          · simpa using fun h => hznode h.symm
          · exact hgone en (List.mem_append_left _ hen)
        intro d hd
        exact discIn_mono hsub (hinv.closed_gone z hzold hgone' d hd)
    · exfalso
      have hzv : z ∈ E.1 := by
        rcases hz with hz | hz
        · exact hz
        · exact absurd (Or.inr hz) hzold
      rcases (hmem_vis z).mp hzv with hz1 | hz1
      · exact hzold (Or.inl hz1)
      · have hznv : z ∉ visited := fun hc => hzold (Or.inl hc)
        obtain ⟨en, hen, he⟩ :=
          bfsEnqueue_complete (len + 1) (sf node) visited z hz1 hznv
        exact hgone en (List.mem_append_right _ hen) he
  refine ⟨?_, ?_, ?_, ?_, ?_, ?_, ?_, hclosed, ?_⟩
  · exact bfsEnqueue_nodup (len + 1) (sf node) visited hinv.vis_nodup
  · intro v hv
    rcases (hmem_vis v).mp hv with h | h
    · exact hinv.vis_lt v h
    · exact hb node v h
  · intro hc
    rcases (hmem_vis s).mp hc with h | h
    · exact hinv.vis_ns h
    · exact hs_nsf h
  · intro en hen
    rcases List.mem_append.mp hen with hen | hen
    · exact hinv.q_exact en (List.mem_cons_of_mem _ hen)
    · obtain ⟨h1, h2, h3⟩ := hnew_q en hen
      rw [h1]
      exact hnew_exact en.1 h2 h3
  · intro en hen
    rcases List.mem_append.mp hen with hen | hen
    · exact discIn_mono hsub (hinv.q_disc en (List.mem_cons_of_mem _ hen))
    · exact Or.inl ((hmem_vis en.1).mpr (Or.inr (hnew_q en hen).2.1))
  · refine List.pairwise_append.mpr ⟨?_, ?_, ?_⟩
    · exact (List.pairwise_cons.mp hinv.q_sorted).2
    · refine List.pairwise_of_forall_mem_list ?_
      intro a ha b hb
      rw [(hnew_q a ha).1, (hnew_q b hb).1]
    · intro a ha b hb
      rw [(hnew_q b hb).1]
      have := hrest_le a ha
      omega
  · intro en1 hen1 en2 hen2
    rcases List.mem_append.mp hen1 with hen1 | hen1 <;>
      rcases List.mem_append.mp hen2 with hen2 | hen2
    · exact hinv.q_window en1 (List.mem_cons_of_mem _ hen1) en2
        (List.mem_cons_of_mem _ hen2)
    · rw [(hnew_q en2 hen2).1]
      have := hrest_ge en1 hen1
      omega
    · rw [(hnew_q en1 hen1).1]
      have := hrest_le en2 hen2
      omega
    · rw [(hnew_q en1 hen1).1, (hnew_q en2 hen2).1]
      omega
  · intro en0 hh y e hmy hee
    by_cases hel : e ≤ len
    · exact discIn_mono hsub
        (hinv.disc_head (node, len) rfl y e hmy hel)
    · -- only lengths len + 1 remain in the queue
      have hen0q : en0 ∈ rest ++ E.2 :=
        List.mem_of_mem_head? (Option.mem_def.mpr hh)
      have hen0_le : en0.2 ≤ len + 1 := by
        rcases List.mem_append.mp hen0q with h | h
        · exact hrest_le en0 h
        · rw [(hnew_q en0 h).1]
      have heq : e = len + 1 := by omega
      have hen0_eq : en0.2 = len + 1 := by omega
      have hall : ∀ en ∈ rest ++ E.2, len + 1 ≤ en.2 := by
        intro en hen
        rcases List.mem_append.mp hen with hen | hen
        · match rest, hh, hen with
          | r0 :: rtail, hh, hen =>
              have hr0 : r0 = en0 := by
                simpa using hh
              subst hr0
              rcases List.mem_cons.mp hen with rfl | hen
              · omega
              · have hs0 := (List.pairwise_cons.mp
                  (List.pairwise_cons.mp hinv.q_sorted).2).1 en hen
                omega
        · rw [(hnew_q en hen).1]
      subst heq
      obtain ⟨z, hmz, hyz⟩ := minD_pred hmy
      have hzdisc : DiscIn s visited z :=
        hinv.disc_head (node, len) rfl z len hmz (Nat.le_refl len)
      have hzgone : ∀ en ∈ rest ++ E.2, en.1 ≠ z := by
        intro en hen hc
        subst hc
        have hlen1 := hall en hen
        rcases List.mem_append.mp hen with hen | hen
        · have hex := hinv.q_exact en (List.mem_cons_of_mem _ hen)
          have := minD_unique hex hmz
          omega
        · obtain ⟨h1, h2, h3⟩ := hnew_q en hen
          have hex := hnew_exact en.1 h2 h3
          have := minD_unique hex hmz
          omega
      exact hclosed z (discIn_mono hsub hzdisc) hzgone y hyz

/-- Every popped answer of the BFS is the exact least distance. -/
theorem bfs_sound {sf : Nat → List Nat} {N s t : Nat}
    (hacy : AcyclicS sf) (hb : BndS sf N) :
    ∀ (fuel : Nat) (visited : List Nat) (queue : List (Nat × Nat)),
      BfsInv sf N s visited queue →
      ∀ d, bfsRun sf t fuel visited queue = some d → MinD sf s t d := by
  intro fuel
  induction fuel with
  | zero =>
      intro visited queue _ d h
      simp [bfsRun] at h
  | succ f ih =>
      intro visited queue hinv d h
      match queue with
      | [] => simp [bfsRun] at h
      | (node, len) :: rest =>
          rw [bfsRun] at h
          by_cases hnt : node = t
          · rw [if_pos hnt] at h
            have hld : len = d := by simpa using h
            subst hld
            exact hnt ▸ hinv.q_exact (node, len) (List.mem_cons_self _ _)
          · rw [if_neg hnt] at h
            exact ih _ _ (bfsInv_step hacy hb hinv) d h

/-- With an empty queue, every reachable node has been discovered. -/
theorem bfs_closure {sf : Nat → List Nat} {N s : Nat} {visited : List Nat}
    (hinv : BfsInv sf N s visited []) :
    ∀ k y, RIn sf s y k → DiscIn s visited y := by
  intro k
  induction k with
  | zero =>
      intro y h
      exact Or.inr (rin_zero h).symm
  | succ k ih =>
      intro y h
      obtain ⟨z, hz, hyz⟩ := RIn.unsnoc h
      exact hinv.closed_gone z (ih z hz) (by simp) y hyz

/-- With sufficient fuel the BFS finds every reachable target. -/
theorem bfs_complete {sf : Nat → List Nat} {N s t : Nat}
    (hacy : AcyclicS sf) (hb : BndS sf N) :
    ∀ (fuel : Nat) (visited : List Nat) (queue : List (Nat × Nat)),
      BfsInv sf N s visited queue →
      (DiscIn s visited t → ∃ en ∈ queue, en.1 = t) →
      queue.length + (N - visited.length) ≤ fuel →
      Reach sf s t →
      ∃ d, bfsRun sf t fuel visited queue = some d := by
  intro fuel
  induction fuel with
  | zero =>
      intro visited queue hinv hNT hfuel hreach
      exfalso
      match queue, hfuel with
      | [], hfuel =>
          obtain ⟨k, hk⟩ := hreach
          obtain ⟨en, hen, _⟩ := hNT (bfs_closure hinv k t hk)
          simp at hen
      | (node, len) :: rest, hfuel => simp at hfuel
  | succ f ih =>
      intro visited queue hinv hNT hfuel hreach
      match queue with
      | [] =>
          exfalso
          obtain ⟨k, hk⟩ := hreach
          obtain ⟨en, hen, _⟩ := hNT (bfs_closure hinv k t hk)
          simp at hen
      | (node, len) :: rest =>
          by_cases hnt : node = t
          · refine ⟨len, ?_⟩
            rw [bfsRun, if_pos hnt]
          · set E := bfsEnqueue visited (len + 1) (sf node) with hE
            have hinv' := bfsInv_step hacy hb hinv
            have hmem_vis : ∀ x, x ∈ E.1 ↔ x ∈ visited ∨ x ∈ sf node :=
              fun x => bfsEnqueue_mem_vis (len + 1) (sf node) visited x
            have hNT' : DiscIn s E.1 t → ∃ en ∈ rest ++ E.2, en.1 = t := by
              intro hdisc
              have hold : DiscIn s visited t → ∃ en ∈ rest ++ E.2, en.1 = t := by
                intro holdd
                obtain ⟨en, hen, he⟩ := hNT holdd
                rcases List.mem_cons.mp hen with heq | hen
                · exact absurd (by rw [← he, heq]) hnt
                · exact ⟨en, List.mem_append_left _ hen, he⟩
              rcases hdisc with hdisc | hdisc
              · rcases (hmem_vis t).mp hdisc with h | h
                · exact hold (Or.inl h)
                · by_cases htv : t ∈ visited
                  · exact hold (Or.inl htv)
                  · obtain ⟨en, hen, he⟩ :=
                      bfsEnqueue_complete (len + 1) (sf node) visited t h htv
                    exact ⟨en, List.mem_append_right _ hen, he⟩
              · exact hold (Or.inr hdisc)
            have hVlen : E.1.length = visited.length + E.2.length :=
              bfsEnqueue_len (len + 1) (sf node) visited
            have hVN : E.1.length ≤ N :=
              nodup_lt_length_le hinv'.vis_nodup hinv'.vis_lt
            have hfuel' : (rest ++ E.2).length + (N - E.1.length) ≤ f := by
              simp only [List.length_append]
              simp only [List.length_cons] at hfuel
              omega
            obtain ⟨d, hd⟩ := ih E.1 (rest ++ E.2) hinv' hNT' hfuel' hreach
            refine ⟨d, ?_⟩
            rw [bfsRun, if_neg hnt]
            exact hd

/-- The BFS invariant holds at the initial state of
`shortest_path_length`. -/
theorem bfsInv_init (sf : Nat → List Nat) (N s : Nat) :
    BfsInv sf N s [] [(s, 0)] := by
  refine ⟨List.nodup_nil, by simp, by simp, ?_, ?_, ?_, ?_, ?_, ?_⟩
  · intro en hen
    simp only [List.mem_singleton] at hen
    subst hen
    exact minD_self sf s
  · intro en hen
    simp only [List.mem_singleton] at hen
    subst hen
    exact Or.inr rfl
  · simp
  · intro en1 h1 en2 h2
    simp only [List.mem_singleton] at h1 h2
    subst h1
    subst h2
    omega
  · intro z hz hgone d hd
    exfalso
    rcases hz with hz | hz
    · simp at hz
    · exact hgone (s, 0) (List.mem_singleton_self _) hz.symm
  · intro en0 hh y e hmy hee
    have hen0 : (s, 0) = en0 := by simpa using hh
    subst hen0
    simp only [] at hee
    have he0 : e = 0 := by omega
    subst he0
    exact Or.inr (rin_zero hmy.1).symm

/-- Claim C7: on a built graph, `shortest_path_length(x, x)` is `Some 0`;
`shortest_path_length(x, y)` is `none` exactly when `y` is unreachable from
`x` over outgoing edges; and when `y` is reachable it returns the minimum
hop count. -/
theorem shortest_path_length_spec {T : Type} (g : Graph T) (x y : Nat)
    (hwf : WF g) (hacy : Acyclic g) (hx : x < g.len) (hy : y < g.len) :
    shortest_path_length g x x = some 0 ∧
    (shortest_path_length g x y = none ↔ ¬ Reach g.out x y) ∧
    (∀ d, MinD g.out x y d → shortest_path_length g x y = some d) := by
  have hacyS : AcyclicS g.out := hacy
  have hb : BndS g.out g.len := hwf.out_bnd
  have hinv := bfsInv_init g.out g.len x
  have hNT : ∀ t : Nat, DiscIn x [] t → ∃ en ∈ [(x, 0)], en.1 = t := by
    intro t h
    rcases h with h | h
    · simp at h
    · exact ⟨(x, 0), List.mem_singleton_self _, h.symm⟩
  have hfuel : [(x, 0)].length + (g.len - ([] : List Nat).length) ≤ g.len + 1 := by
    simp
    omega
  refine ⟨?_, ⟨?_, ?_⟩, ?_⟩
  · show bfsRun g.out x (g.len + 1) [] [(x, 0)] = some 0
    rw [bfsRun, if_pos rfl]
  · intro hnone hreach
    obtain ⟨d, hd⟩ := bfs_complete hacyS hb (g.len + 1) [] [(x, 0)]
      hinv (hNT y) hfuel hreach
    rw [show bfsRun g.out y (g.len + 1) [] [(x, 0)] =
      shortest_path_length g x y from rfl] at hd
    rw [hnone] at hd
    cases hd
  · intro hnreach
    cases hres : shortest_path_length g x y with
    | none => rfl
    | some d =>
        exact absurd ⟨d, (bfs_sound hacyS hb (g.len + 1) [] [(x, 0)]
          hinv d hres).1⟩ hnreach
  · intro d hmd
    obtain ⟨d', hd'⟩ := bfs_complete hacyS hb (g.len + 1) [] [(x, 0)]
      hinv (hNT y) hfuel ⟨d, hmd.1⟩
    have hmd' := bfs_sound hacyS hb (g.len + 1) [] [(x, 0)] hinv d' hd'
    have : d = d' := minD_unique hmd hmd'
    subst this
    exact hd'

/-- The Scenario A graph: nodes `0, 1, 2` with edges `0 → 1`, `1 → 2`,
`0 → 2`. -/
def gScenA : Graph Unit :=
  ⟨[(), (), ()], ⟨[[1, 2], [2], []], [[], [0], [1, 0]], []⟩⟩

/-- Witness for C7 on the Scenario A graph. -/
theorem shortest_path_length_spec_witness :
    shortest_path_length gScenA 0 0 = some 0 ∧
    (shortest_path_length gScenA 0 2 = none ↔ ¬ Reach gScenA.out 0 2) ∧
    (∀ d, MinD gScenA.out 0 2 d →
      shortest_path_length gScenA 0 2 = some d) :=
  shortest_path_length_spec gScenA 0 2 (wf_of_wfCheck (by decide))
    (acyclic_of_rank_check gScenA (fun n => n) (by decide) (by decide))
    (by decide) (by decide)

/-! ## Claim C4 — the `Paths` visitor

Embedding of `Paths::next` from `visitor/paths.rs`, drained: pop
`(node, depth)` from the stack; truncate the shared path buffer to `depth`
and push `node`; yield a copy of the buffer when `node` is the target,
otherwise push the descendants of `node` (in reverse, so they pop in
adjacency order) with depth `depth + 1`. -/

/-- Drain of the `Paths` iterator.  The stack holds `(node, depth)` pairs
with the head on top; `path` is the shared backtracking buffer. -/
def pathsRun (out : Nat → List Nat) (target : Nat) :
    Nat → List (Nat × Nat) → List Nat → List (List Nat)
  | 0, _, _ => []
  | _ + 1, [], _ => []
  | f + 1, (node, depth) :: rest, path =>
    if node = target then
      (path.take depth ++ [node]) ::
        pathsRun out target f rest (path.take depth ++ [node])
    else
      pathsRun out target f (((out node).map fun d => (d, depth + 1)) ++ rest)
        (path.take depth ++ [node])

/-- Specification-level enumeration: all paths from `node` ending at
`target`, fuel-bounded in length. -/
def subPaths (out : Nat → List Nat) (target : Nat) : Nat → Nat → List (List Nat)
  | 0, _ => []
  | f + 1, node =>
    if node = target then [[node]]
    else (out node).flatMap fun d => (subPaths out target f d).map fun p => node :: p

/-- Exact number of stack pops the `Paths` machine spends on the subtree of
one node (fuel-stabilised). -/
def pwork (out : Nat → List Nat) (target : Nat) : Nat → Nat → Nat
  | 0, _ => 1
  | f + 1, node =>
    if node = target then 1
    else 1 + ((out node).map fun d => pwork out target f d).sum

/-- A path from `s` to `t`: nonempty, starts at `s`, ends at `t`, and
consecutive nodes are joined by edges. -/
def IsPathFT (sf : Nat → List Nat) (s t : Nat) (p : List Nat) : Prop :=
  p ≠ [] ∧ p.head? = some s ∧ p.getLast? = some t ∧ IsWalk sf p

/-- All paths yielded by `graph.paths(source, target)` when drained. -/
def Graph.pathsList {T : Type} (g : Graph T) (source target : Nat) :
    List (List Nat) :=
  pathsRun g.out target (pwork g.out target (g.len + 1) source)
    [(source, 0)] [source]

theorem subPaths_stable {out : Nat → List Nat} {t : Nat} :
    ∀ (f g n : Nat), (∀ y k, RIn out n y k → k + 1 ≤ f) → f ≤ g →
      subPaths out t f n = subPaths out t g n := by
  intro f
  induction f with
  | zero =>
      intro g n hbnd _
      exact absurd (hbnd n 0 (RIn.refl n)) (by omega)
  | succ f ih =>
      intro g n hbnd hfg
      match g, hfg with
      | g + 1, hfg =>
          rw [subPaths, subPaths]
          by_cases hnt : n = t
          · rw [if_pos hnt, if_pos hnt]
          · rw [if_neg hnt, if_neg hnt]
            refine List.flatMap_congr ?_
            intro d hd
            have hrec := ih g d
              (fun y k hr => by have := hbnd y (k + 1) (RIn.head hd hr); omega)
              (by omega)
            rw [hrec]

theorem pwork_stable {out : Nat → List Nat} {t : Nat} :
    ∀ (f g n : Nat), (∀ y k, RIn out n y k → k + 1 ≤ f) → f ≤ g →
      pwork out t f n = pwork out t g n := by
  intro f
  induction f with
  | zero =>
      intro g n hbnd _
      exact absurd (hbnd n 0 (RIn.refl n)) (by omega)
  | succ f ih =>
      intro g n hbnd hfg
      match g, hfg with
      | g + 1, hfg =>
          rw [pwork, pwork]
          by_cases hnt : n = t
          · rw [if_pos hnt, if_pos hnt]
          · rw [if_neg hnt, if_neg hnt]
            congr 2
            refine List.map_congr_left ?_
            intro d hd
            exact ih g d
              (fun y k hr => by have := hbnd y (k + 1) (RIn.head hd hr); omega)
              (by omega)

theorem pwork_pos {out : Nat → List Nat} {t : Nat} :
    ∀ (f n : Nat), 1 ≤ pwork out t f n := by
  intro f n
  cases f with
  | zero => exact Nat.le_refl 1
  | succ f =>
      rw [pwork]
      by_cases hnt : n = t
      · rw [if_pos hnt]
      · rw [if_neg hnt]
        omega

/-- On acyclic bounded graphs the reach-length precondition of the
stability lemmas holds at fuel `N + 1` for every in-bounds node. -/
theorem reach_len_bnd {out : Nat → List Nat} {N n : Nat}
    (hacy : AcyclicS out) (hb : BndS out N) (hn : n < N) :
    ∀ y k, RIn out n y k → k + 1 ≤ N + 1 :=
  fun _ k hr => by have := rin_lt_of_acyclic hacy hb hn hr; omega

theorem pwork_step {out : Nat → List Nat} {t N n : Nat}
    (hacy : AcyclicS out) (hb : BndS out N) (hn : n < N) (hnt : n ≠ t) :
    pwork out t (N + 1) n =
      1 + ((out n).map fun d => pwork out t (N + 1) d).sum := by
  rw [pwork, if_neg hnt]
  congr 2
  refine List.map_congr_left ?_
  intro d hd
  exact pwork_stable N (N + 1) d
    (fun y k hr => rin_lt_of_acyclic hacy hb (hb n d hd) hr) (by omega)

theorem subPaths_step {out : Nat → List Nat} {t N n : Nat}
    (hacy : AcyclicS out) (hb : BndS out N) (hn : n < N) (hnt : n ≠ t) :
    subPaths out t (N + 1) n =
      (out n).flatMap fun d =>
        (subPaths out t (N + 1) d).map fun p => n :: p := by
  rw [subPaths, if_neg hnt]
  refine List.flatMap_congr ?_
  intro d hd
  rw [subPaths_stable N (N + 1) d
    (fun y k hr => rin_lt_of_acyclic hacy hb (hb n d hd) hr) (by omega)]

/-- Soundness of the specification enumeration: every enumerated list is a
path from `n` to `t` of length at most the fuel. -/
theorem subPaths_sound {out : Nat → List Nat} {t : Nat} :
    ∀ {f n p}, p ∈ subPaths out t f n → IsPathFT out n t p ∧ p.length ≤ f := by
  intro f
  induction f with
  | zero => intro n p h; simp [subPaths] at h
  | succ f ih =>
      intro n p h
      rw [subPaths] at h
      by_cases hnt : n = t
      · rw [if_pos hnt] at h
        simp only [List.mem_singleton] at h
        subst h
        subst hnt
        exact ⟨⟨by simp, by simp, by simp, by simp [IsWalk]⟩, by simp⟩
      · rw [if_neg hnt] at h
        simp only [List.mem_flatMap, List.mem_map] at h
        obtain ⟨d, hd, q, hq, rfl⟩ := h
        obtain ⟨⟨hne, hh, hl, hw⟩, hlen⟩ := ih hq
        match q, hne, hh, hl, hw with
        | b :: q', _, hh, hl, hw =>
            simp only [List.head?_cons, Option.some_inj] at hh
            subst hh
            refine ⟨⟨by simp, by simp, ?_, ?_⟩, by simpa using hlen⟩
            · simpa [List.getLast?_cons_cons] using hl
            · exact List.chain'_cons.mpr ⟨hd, hw⟩

/-- Completeness of the specification enumeration on acyclic graphs: every
path from `n` to `t` with length within the fuel is enumerated. -/
theorem subPaths_complete {out : Nat → List Nat} {t : Nat}
    (hacy : AcyclicS out) :
    ∀ {p n f}, IsPathFT out n t p → p.length ≤ f →
      p ∈ subPaths out t f n := by
  intro p
  induction p with
  | nil => intro n f h _; exact absurd rfl h.1
  | cons a q ih =>
      intro n f h hlen
      obtain ⟨-, hh, hl, hw⟩ := h
      simp only [List.head?_cons, Option.some_inj] at hh
      subst hh
      match f, hlen with
      | f + 1, hlen =>
          rw [subPaths]
          match q, hl, hw with
          | [], hl, _ =>
              simp only [List.getLast?_singleton, Option.some_inj] at hl
              subst hl
              rw [if_pos rfl]
              simp
          | b :: q', hl, hw =>
              have hl' : (b :: q').getLast? = some t := by
                simpa [List.getLast?_cons_cons] using hl
              have hbn : b ∈ out a := (List.chain'_cons.mp hw).1
              have hw' : IsWalk out (b :: q') := (List.chain'_cons.mp hw).2
              by_cases hnt : a = t
              · exfalso
                subst hnt
                have hr := @rin_of_walk out (a :: b :: q') a a hw rfl hl
                simp only [List.length_cons, Nat.add_sub_cancel] at hr
                exact hacy a (q'.length) hr
              · rw [if_neg hnt]
                simp only [List.mem_flatMap, List.mem_map]
                refine ⟨b, hbn, b :: q', ?_, rfl⟩
                refine ih ⟨by simp, rfl, hl', hw'⟩ ?_
                simp only [List.length_cons] at hlen ⊢
                omega

/-- The specification enumeration never lists a path twice. -/
theorem subPaths_nodup {out : Nat → List Nat} {t : Nat}
    (hnd : ∀ u, (out u).Nodup) :
    ∀ (f n : Nat), (subPaths out t f n).Nodup := by
  intro f
  induction f with
  | zero => intro n; simp [subPaths]
  | succ f ih =>
      intro n
      rw [subPaths]
      by_cases hnt : n = t
      · rw [if_pos hnt]; simp
      · rw [if_neg hnt]
        rw [List.nodup_flatMap]
        constructor
        · intro d _
          exact (ih d).map fun p q h => by injection h
        · have hout := hnd n
          refine hout.imp_of_mem ?_
          intro d d' hd hd' hne
          intro x hx hx'
          simp only [Function.onFun, List.mem_map] at hx hx'
          obtain ⟨p1, hp1, rfl⟩ := hx
          obtain ⟨p2, hp2, heq⟩ := hx'
          have hpp : p2 = p1 := by injection heq
          subst hpp
          have h1 := (subPaths_sound hp1).1.2.1
          have h2 := (subPaths_sound hp2).1.2.1
          rw [h1] at h2
          exact hne (Option.some_inj.mp h2)

/-- Simulation lemma for the `Paths` machine: with fuel covering the exact
pop count, the drained machine produces, entry by entry, the specification
enumeration of each stack entry grafted onto its path prefix.  The stack is
sorted by non-increasing depth (top first) and depths stay within the
buffer. -/
theorem pathsRun_spec {out : Nat → List Nat} {t N : Nat}
    (hacy : AcyclicS out) (hb : BndS out N) :
    ∀ (F : Nat) (stack : List (Nat × Nat)) (path : List Nat),
      (∀ en ∈ stack, en.1 < N) →
      List.Pairwise (fun a b : Nat × Nat => b.2 ≤ a.2) stack →
      (∀ en ∈ stack, en.2 ≤ path.length) →
      (stack.map fun en => pwork out t (N + 1) en.1).sum ≤ F →
      pathsRun out t F stack path =
        stack.flatMap fun en =>
          (subPaths out t (N + 1) en.1).map fun q => path.take en.2 ++ q := by
  intro F
  induction F with
  | zero =>
      intro stack path hlt hsort hdep hfuel
      match stack with
      | [] => simp [pathsRun]
      | en :: rest =>
          exfalso
          simp only [List.map_cons, List.sum_cons] at hfuel
          have hp1 := @pwork_pos out t (N + 1) en.1
          omega
  | succ F ih =>
      intro stack path hlt hsort hdep hfuel
      match stack with
      | [] => simp [pathsRun]
      | (node, depth) :: rest =>
          have hnode : node < N := hlt (node, depth) (List.mem_cons_self _ _)
          have hdepth : depth ≤ path.length :=
            hdep (node, depth) (List.mem_cons_self _ _)
          have hrest_le : ∀ en ∈ rest, en.2 ≤ depth :=
            fun en hen => (List.pairwise_cons.mp hsort).1 en hen
          have hplen : (path.take depth ++ [node]).length = depth + 1 := by
            simp only [List.length_append, List.length_take,
              List.length_singleton]
            omega
          have htake : ∀ e ≤ depth,
              (path.take depth ++ [node]).take e = path.take e := by
            intro e he
            rw [List.take_append_of_le_length
              (by simp only [List.length_take]; omega), List.take_take]
            congr 1
            omega
          rw [pathsRun]
          by_cases hnt : node = t
          · rw [if_pos hnt]
            have hpw1 : pwork out t (N + 1) node = 1 := by
              rw [pwork, if_pos hnt]
            simp only [List.map_cons, List.sum_cons, hpw1] at hfuel
            have hrec := ih rest (path.take depth ++ [node])
              (fun en hen => hlt en (List.mem_cons_of_mem _ hen))
              (List.pairwise_cons.mp hsort).2
              (fun en hen => by rw [hplen]; have := hrest_le en hen; omega)
              (by omega)
            rw [hrec]
            rw [List.flatMap_cons]
            have hhead : (subPaths out t (N + 1) node).map
                (fun q => path.take depth ++ q) = [path.take depth ++ [node]] := by
              rw [show subPaths out t (N + 1) node = [[node]] from by
                rw [subPaths, if_pos hnt]]
              simp
            rw [hhead]
            simp only [List.singleton_append, List.cons.injEq, true_and]
            refine List.flatMap_congr ?_
            intro en hen
            rw [htake en.2 (hrest_le en hen)]
          · rw [if_neg hnt]
            have hsum_children :
                ((((out node).map fun d => (d, depth + 1))).map
                  (fun en : Nat × Nat => pwork out t (N + 1) en.1)).sum =
                ((out node).map fun d => pwork out t (N + 1) d).sum := by
              rw [List.map_map]
              rfl
            have hrec := ih (((out node).map fun d => (d, depth + 1)) ++ rest)
              (path.take depth ++ [node])
              (by
                intro en hen
                rcases List.mem_append.mp hen with hen | hen
                · obtain ⟨d, hd, rfl⟩ := List.mem_map.mp hen
                  exact hb node d hd
                · exact hlt en (List.mem_cons_of_mem _ hen))
              (by
                refine List.pairwise_append.mpr ⟨?_, ?_, ?_⟩
                · refine List.pairwise_of_forall_mem_list ?_
                  intro a ha b hb2
                  obtain ⟨d, hd, rfl⟩ := List.mem_map.mp ha
                  obtain ⟨d', hd', rfl⟩ := List.mem_map.mp hb2
                  exact Nat.le_refl _
                · exact (List.pairwise_cons.mp hsort).2
                · intro a ha b hb2
                  obtain ⟨d, hd, rfl⟩ := List.mem_map.mp ha
                  have := hrest_le b hb2
                  omega)
              (by
                intro en hen
                rw [hplen]
                rcases List.mem_append.mp hen with hen | hen
                · obtain ⟨d, hd, rfl⟩ := List.mem_map.mp hen
                  exact Nat.le_refl _
                · have := hrest_le en hen
                  omega)
              (by
                rw [List.map_append, List.sum_append, hsum_children]
                simp only [List.map_cons, List.sum_cons] at hfuel
                rw [pwork_step hacy hb hnode hnt] at hfuel
                omega)
            rw [hrec]
            rw [List.flatMap_append, List.flatMap_cons]
            have hchild : (((out node).map fun d => (d, depth + 1)).flatMap
                fun en => (subPaths out t (N + 1) en.1).map
                  fun q => (path.take depth ++ [node]).take en.2 ++ q) =
                (subPaths out t (N + 1) node).map
                  fun q => path.take depth ++ q := by
              rw [List.flatMap_map, subPaths_step hacy hb hnode hnt,
                List.map_flatMap]
              refine List.flatMap_congr ?_
              intro d hd
              simp only []
              rw [show (path.take depth ++ [node]).take (depth + 1) =
                  path.take depth ++ [node] from by
                rw [← hplen]; exact List.take_length _]
              rw [List.map_map]
              refine List.map_congr_left ?_
              intro q hq
              simp [List.append_assoc]
            rw [hchild]
            congr 1
            refine List.flatMap_congr ?_
            intro en hen
            rw [htake en.2 (hrest_le en hen)]

/-- Claim C4: on a built DAG, the drained `paths(source, target)` iterator
yields exactly the paths from `source` to `target` (which are simple, no
node repeated), each exactly once. -/
theorem paths_spec {T : Type} (g : Graph T) (s t : Nat)
    (hwf : WF g) (hacy : Acyclic g) (hs : s < g.len) (ht : t < g.len) :
    (∀ p, p ∈ g.pathsList s t ↔ IsPathFT g.out s t p) ∧
    (∀ p ∈ g.pathsList s t, p.Nodup) ∧
    (g.pathsList s t).Nodup := by
  have hacyS : AcyclicS g.out := hacy
  have hb : BndS g.out g.len := hwf.out_bnd
  have hrun : g.pathsList s t = subPaths g.out t (g.len + 1) s := by
    unfold Graph.pathsList
    rw [pathsRun_spec hacyS hb _ [(s, 0)] [s]
      (by intro en hen; simp only [List.mem_singleton] at hen; subst hen; exact hs)
      (by simp)
      (by intro en hen; simp only [List.mem_singleton] at hen; subst hen; simp)
      (by simp only [List.map_cons, List.map_nil, List.sum_cons, List.sum_nil]
          omega)]
    simp
  have hmem : ∀ p, p ∈ g.pathsList s t ↔ IsPathFT g.out s t p := by
    intro p
    rw [hrun]
    constructor
    · intro h
      exact (subPaths_sound h).1
    · intro h
      refine subPaths_complete hacyS h ?_
      have hnd := walk_nodup hacyS h.2.2.2
      have hmlt := walk_mem_lt hb h.2.2.2 h.2.1 hs
      have := nodup_lt_length_le hnd hmlt
      omega
  refine ⟨hmem, ?_, ?_⟩
  · intro p hp
    exact walk_nodup hacyS ((hmem p).mp hp).2.2.2
  · rw [hrun]
    exact subPaths_nodup hwf.out_nodup _ s

/-- Witness for C4 on the Scenario A graph. -/
theorem paths_spec_witness :
    ([0, 1, 2] ∈ Graph.pathsList gScenA 0 2 ↔ IsPathFT gScenA.out 0 2 [0, 1, 2]) ∧
    (Graph.pathsList gScenA 0 2).Nodup :=
  ⟨(paths_spec gScenA 0 2 (wf_of_wfCheck (by decide))
      (acyclic_of_rank_check gScenA (fun n => n) (by decide) (by decide))
      (by decide) (by decide)).1 [0, 1, 2],
   (paths_spec gScenA 0 2 (wf_of_wfCheck (by decide))
      (acyclic_of_rank_check gScenA (fun n => n) (by decide) (by decide))
      (by decide) (by decide)).2.2⟩

/-! ## Claim C3 — the builder's incremental cycle rejection

Modelled from the spec: `builder.rs` is not under `src/`.  Per the spec, the
builder holds the payloads added so far and the ordered edge list;
`add_edge(u, v, w)` fails with `InvalidNode` when an index is out of current
bounds, fails with `Cycle` when `u` is already reachable forward from `v`
(detected by an incremental reachability probe), and otherwise records the
edge, coalescing repeated `(u, v)` pairs (first-seen weight kept). -/

/-- Construction errors. -/
inductive BuildErr
  | InvalidNode
  | Cycle
deriving DecidableEq

/-- Modelled from the spec: the mutable builder state. -/
structure Builder (T W : Type) where
  nodes : List T
  edges : List (Nat × Nat × W)
deriving DecidableEq

/-- `add_node`: appends a payload and returns its dense index. -/
def Builder.add_node {T W : Type} (b : Builder T W) (x : T) :
    Nat × Builder T W :=
  (b.nodes.length, ⟨b.nodes ++ [x], b.edges⟩)

/-- Successors in the graph built so far (edge-insertion order). -/
def Builder.succs {T W : Type} (b : Builder T W) (u : Nat) : List Nat :=
  b.edges.filterMap fun e => if e.1 = u then some e.2.1 else none

/-- `add_edge(u, v, weight)`. -/
def Builder.add_edge {T W : Type} (b : Builder T W) (u v : Nat) (w : W) :
    Except BuildErr (Builder T W) :=
  if b.nodes.length ≤ u ∨ b.nodes.length ≤ v then .error .InvalidNode
  else if rchB b.succs b.nodes.length v u then .error .Cycle
  else if b.edges.any fun e => e.1 = u && e.2.1 = v then .ok b
  else .ok ⟨b.nodes, b.edges ++ [(u, v, w)]⟩

/-- Claim C3: for nodes already added, `add_edge(u, v, w)` fails with
`Cycle` exactly when `u` is reachable from `v` in the graph built so far
(so the edge would close a cycle). -/
theorem add_edge_cycle_iff {T W : Type} (b : Builder T W) (u v : Nat) (w : W)
    (hacy : AcyclicS b.succs) (hbnd : BndS b.succs b.nodes.length)
    (hu : u < b.nodes.length) (hv : v < b.nodes.length) :
    (b.add_edge u v w = .error .Cycle ↔ Reach b.succs v u) := by
  unfold Builder.add_edge
  rw [if_neg (by omega)]
  by_cases hr : rchB b.succs b.nodes.length v u = true
  · rw [if_pos hr]
    simp only [true_iff]
    exact (reach_iff_rchB hacy hbnd hv).mpr hr
  · rw [if_neg hr]
    constructor
    · intro h
      by_cases hdup : (b.edges.any fun e => e.1 = u && e.2.1 = v) = true
      · rw [if_pos hdup] at h
        cases h
      · rw [if_neg hdup] at h
        cases h
    · intro h
      exact absurd ((reach_iff_rchB hacy hbnd hv).mp h) hr

/-- The one-edge builder state (`a → b` inserted into a two-node builder). -/
def bAB : Builder Unit Nat := ⟨[(), ()], [(0, 1, 0)]⟩

/-- The two-edge builder state (`a → b`, `b → c` in a three-node builder). -/
def bABC : Builder Unit Nat := ⟨[(), (), ()], [(0, 1, 0), (1, 2, 0)]⟩

theorem bAB_succs_mem : ∀ x y : Nat, y ∈ bAB.succs x → x = 0 ∧ y = 1 := by
  intro x y hy
  simp only [Builder.succs, bAB, List.filterMap_cons, List.filterMap_nil] at hy
  by_cases hx : (0 : Nat) = x
  · rw [if_pos hx] at hy
    simp only [List.mem_singleton] at hy
    exact ⟨hx.symm, hy⟩
  · rw [if_neg hx] at hy
    simp at hy

theorem bABC_succs_mem : ∀ x y : Nat, y ∈ bABC.succs x →
    (x = 0 ∧ y = 1) ∨ (x = 1 ∧ y = 2) := by
  intro x y hy
  simp only [Builder.succs, bABC, List.filterMap_cons, List.filterMap_nil] at hy
  by_cases hx0 : (0 : Nat) = x
  · rw [if_pos hx0] at hy
    by_cases hx1 : (1 : Nat) = x
    · omega
    · rw [if_neg hx1] at hy
      simp only [List.mem_singleton] at hy
      exact Or.inl ⟨hx0.symm, hy⟩
  · rw [if_neg hx0] at hy
    by_cases hx1 : (1 : Nat) = x
    · rw [if_pos hx1] at hy
      simp only [List.mem_singleton] at hy
      exact Or.inr ⟨hx1.symm, hy⟩
    · rw [if_neg hx1] at hy
      simp at hy

/-- Witness for C3: both spec examples.  After `add_edge(a, b)` succeeded,
`add_edge(b, a)` fails with `Cycle`; after `a → b` and `b → c`, the
cycle-closing third insertion `c → a` fails with `Cycle`. -/
theorem add_edge_cycle_iff_witness :
    (Builder.add_edge (⟨[(), ()], []⟩ : Builder Unit Nat) 0 1 0 = .ok bAB) ∧
    bAB.add_edge 1 0 7 = .error .Cycle ∧
    (bAB.add_edge 1 2 0 = .error .InvalidNode) ∧
    (Builder.add_edge (⟨[(), (), ()], [(0, 1, 0)]⟩ : Builder Unit Nat) 1 2 0 =
      .ok bABC) ∧
    bABC.add_edge 2 0 7 = .error .Cycle := by
  refine ⟨by rfl, ?_, by rfl, by rfl, ?_⟩
  · refine (add_edge_cycle_iff bAB 1 0 7 ?_ ?_ (by decide) (by decide)).mpr ?_
    · exact acyclicS_of_rank (fun n => n)
        (fun x y hy => by obtain ⟨rfl, rfl⟩ := bAB_succs_mem x y hy; decide)
    · intro x y hy
      obtain ⟨rfl, rfl⟩ := bAB_succs_mem x y hy
      decide
    · exact ⟨1, RIn.head (by decide) (RIn.refl 1)⟩
  · refine (add_edge_cycle_iff bABC 2 0 7 ?_ ?_ (by decide) (by decide)).mpr ?_
    · exact acyclicS_of_rank (fun n => n)
        (fun x y hy => by rcases bABC_succs_mem x y hy with ⟨rfl, rfl⟩ | ⟨rfl, rfl⟩ <;> decide)
    · intro x y hy
      rcases bABC_succs_mem x y hy with ⟨rfl, rfl⟩ | ⟨rfl, rfl⟩ <;> decide
    · have h01 : (1 : Nat) ∈ bABC.succs 0 := by decide
      have h12 : (2 : Nat) ∈ bABC.succs 1 := by decide
      exact ⟨2, RIn.head h01 (RIn.head h12 (RIn.refl 2))⟩

/-! ## Claim C2 — the traversal engine

Modelled from the spec: `traversal.rs` is not under `src/`.  Per the spec,
each node is Pending, Ready, InFlight or Completed; a node becomes Ready
when its count of unresolved predecessors — restricted to predecessors
reachable from the root set — reaches zero (so roots with no in-set
predecessors are seeded Ready); `take` removes the first Ready node (FIFO by
readiness time, ties by ascending index) and marks it InFlight; `complete`
moves InFlight to Completed, fails with `NotInFlight` otherwise, and
decrements the counters of the direct successors, readying those that reach
zero. -/

/-- Traversal protocol error. -/
inductive TravErr
  | NotInFlight
deriving DecidableEq

/-- Node states of the traversal engine. -/
inductive NodeState
  | pending
  | ready
  | inflight
  | completed
deriving DecidableEq

/-- Outgoing neighbours of a node of a topology. -/
def Topology.outAdj (tp : Topology) (u : Nat) : List Nat :=
  tp.outgoing.getD u []

/-- Incoming neighbours of a node of a topology. -/
def Topology.incAdj (tp : Topology) (u : Nat) : List Nat :=
  tp.incoming.getD u []

/-- The traversal state. -/
structure Traversal where
  topology : Topology
  reach : List Nat
  counts : List Nat
  status : List NodeState
  readyQ : List Nat

/-- Initial pending-predecessor counter: predecessors restricted to the
root-reachable set. -/
def initCount (tp : Topology) (reach : List Nat) (n : Nat) : Nat :=
  ((tp.incAdj n).filter fun p => reach.contains p).length

/-- `Traversal::new(topology, initial)`. -/
def Traversal.new (tp : Topology) (initial : List Nat) : Traversal :=
  let N := tp.outgoing.length
  let reach := (List.range N).filter fun n =>
    initial.any fun r => rchB tp.outAdj N r n
  { topology := tp
    reach := reach
    counts := (List.range N).map fun n => initCount tp reach n
    status := (List.range N).map fun n =>
      if reach.contains n && (initCount tp reach n == 0) then .ready
      else .pending
    readyQ := (List.range N).filter fun n =>
      reach.contains n && (initCount tp reach n == 0) }

/-- `take()`: remove the first Ready node, mark it InFlight and return it;
`none` when no node is Ready. -/
def Traversal.take (t : Traversal) : Option Nat × Traversal :=
  match t.readyQ with
  | [] => (none, t)
  | n :: rest =>
    (some n, { t with readyQ := rest, status := t.status.set n .inflight })

/-- The decrement guard of `complete`: the successor is root-reachable and
still pending. -/
def decGuard (t : Traversal) (d : Nat) : Bool :=
  t.reach.contains d && (t.status.getD d .pending == .pending)

/-- Counters after `complete(n)`: every root-reachable pending direct
successor of `n` is decremented. -/
def completeCounts (t : Traversal) (n : Nat) : List Nat :=
  (t.topology.outAdj n).foldl
    (fun cs d =>
      if decGuard t d then cs.set d (cs.getD d 0 - 1) else cs)
    t.counts

/-- Successors of `n` whose counter reached zero: they transition
Pending → Ready, in ascending index order. -/
def completeNewly (t : Traversal) (n : Nat) : List Nat :=
  (List.range t.topology.outgoing.length).filter fun d =>
    (t.topology.outAdj n).contains d && t.reach.contains d &&
      (t.status.getD d .pending == .pending) &&
      ((completeCounts t n).getD d 0 == 0)

/-- Statuses after `complete(n)`: `n` Completed, the newly-ready Ready. -/
def completeStatus (t : Traversal) (n : Nat) : List NodeState :=
  (completeNewly t n).foldl (fun st d => st.set d .ready)
    (t.status.set n .completed)

/-- `complete(node)`: InFlight → Completed, decrement the counters of the
root-reachable pending successors, and ready those that reach zero
(appended in ascending index order); `NotInFlight` otherwise. -/
def Traversal.complete (t : Traversal) (n : Nat) : Except TravErr Traversal :=
  if t.status.getD n .pending = .inflight then
    .ok { t with
      status := completeStatus t n
      counts := completeCounts t n
      readyQ := t.readyQ ++ completeNewly t n }
  else .error .NotInFlight

/-- Driver operations on a traversal. -/
inductive TravOp
  | take
  | complete (n : Nat)

/-- Observable events: the result of each `take` and the outcome of each
`complete`. -/
inductive TravEv
  | took (n : Option Nat)
  | completedOk (n : Nat)
  | completedErr (n : Nat)
deriving DecidableEq

/-- One driver call. -/
def stepOp (t : Traversal) : TravOp → Traversal × TravEv
  | .take => ((t.take).2, .took (t.take).1)
  | .complete n =>
    match t.complete n with
    | .ok t' => (t', .completedOk n)
    | .error _ => (t, .completedErr n)

/-- Run a sequence of driver calls, collecting events in order. -/
def runOps (t : Traversal) : List TravOp → List TravEv
  | [] => []
  | op :: ops => (stepOp t op).2 :: runOps (stepOp t op).1 ops

/-! List helpers for the traversal proofs. -/

theorem getD_set_self {α : Type} (l : List α) (n : Nat) (a d : α)
    (h : n < l.length) : (l.set n a).getD n d = a := by
  simp [List.getD_eq_getElem?_getD, List.getElem?_set_self, h]

theorem getD_set_ne {α : Type} (l : List α) (n m : Nat) (a d : α)
    (h : m ≠ n) : (l.set n a).getD m d = l.getD m d := by
  simp [List.getD_eq_getElem?_getD, List.getElem?_set_ne, Ne.symm h]

theorem getD_ge {α : Type} (l : List α) (n : Nat) (d : α)
    (h : l.length ≤ n) : l.getD n d = d := by
  simp [List.getD_eq_getElem?_getD, List.getElem?_eq_none, h]

theorem getD_map_range {α : Type} (f : Nat → α) (N x : Nat) (d : α) :
    ((List.range N).map f).getD x d = if x < N then f x else d := by
  by_cases hx : x < N
  · rw [if_pos hx]
    simp [List.getD_eq_getElem?_getD, List.getElem?_map, List.getElem?_range, hx]
  · rw [if_neg hx]
    refine getD_ge _ _ _ ?_
    simp
    omega

theorem foldl_set_length {α : Type} (v : α) :
    ∀ (l : List Nat) (st : List α),
      (l.foldl (fun st d => st.set d v) st).length = st.length := by
  intro l
  induction l with
  | nil => intro st; rfl
  | cons d t ih => intro st; rw [List.foldl_cons, ih]; simp

theorem foldl_set_getD_of_not_mem {α : Type} (v d0 : α) :
    ∀ (l : List Nat) (st : List α) (x : Nat), x ∉ l →
      (l.foldl (fun st d => st.set d v) st).getD x d0 = st.getD x d0 := by
  intro l
  induction l with
  | nil => intro st x _; rfl
  | cons d t ih =>
      intro st x hx
      rw [List.foldl_cons, ih _ x (fun hc => hx (List.mem_cons_of_mem _ hc))]
      exact getD_set_ne st d x v d0 (fun hc => hx (hc ▸ List.mem_cons_self _ _))

theorem foldl_set_getD_of_mem {α : Type} (v d0 : α) :
    ∀ (l : List Nat) (st : List α) (x : Nat), x < st.length →
      (x ∈ l ∨ st.getD x d0 = v) →
      (l.foldl (fun st d => st.set d v) st).getD x d0 = v := by
  intro l
  induction l with
  | nil =>
      intro st x _ h
      rcases h with h | h
      · simp at h
      · exact h
  | cons d t ih =>
      intro st x hlen h
      rw [List.foldl_cons]
      refine ih (st.set d v) x (by simpa using hlen) ?_
      by_cases hxd : x = d
      · subst hxd
        exact Or.inr (getD_set_self st x v d0 hlen)
      · rcases h with h | h
        · rcases List.mem_cons.mp h with h | h
          · exact absurd h hxd
          · exact Or.inl h
        · exact Or.inr (by rw [getD_set_ne st d x v d0 hxd]; exact h)

theorem foldl_dec_length (P : Nat → Bool) :
    ∀ (l : List Nat) (cs : List Nat),
      (l.foldl (fun cs d => if P d then cs.set d (cs.getD d 0 - 1) else cs)
        cs).length = cs.length := by
  intro l
  induction l with
  | nil => intro cs; rfl
  | cons d t ih =>
      intro cs
      rw [List.foldl_cons, ih]
      by_cases h : P d
      · rw [if_pos h]; simp
      · rw [if_neg h]

theorem foldl_dec_getD_of_not_mem (P : Nat → Bool) :
    ∀ (l : List Nat) (cs : List Nat) (x : Nat), x ∉ l →
      (l.foldl (fun cs d => if P d then cs.set d (cs.getD d 0 - 1) else cs)
        cs).getD x 0 = cs.getD x 0 := by
  intro l
  induction l with
  | nil => intro cs x _; rfl
  | cons d t ih =>
      intro cs x hx
      rw [List.foldl_cons, ih _ x (fun hc => hx (List.mem_cons_of_mem _ hc))]
      by_cases h : P d
      · rw [if_pos h]
        exact getD_set_ne cs d x _ 0 (fun hc => hx (hc ▸ List.mem_cons_self _ _))
      · rw [if_neg h]

theorem foldl_dec_getD (P : Nat → Bool) :
    ∀ (l : List Nat) (cs : List Nat) (x : Nat), l.Nodup → x ∈ l →
      x < cs.length →
      (l.foldl (fun cs d => if P d then cs.set d (cs.getD d 0 - 1) else cs)
        cs).getD x 0 = if P x then cs.getD x 0 - 1 else cs.getD x 0 := by
  intro l
  induction l with
  | nil => intro cs x _ hx; simp at hx
  | cons d t ih =>
      intro cs x hnd hx hlen
      rw [List.foldl_cons]
      by_cases hxd : x = d
      · subst hxd
        have hxt : x ∉ t := (List.nodup_cons.mp hnd).1
        rw [foldl_dec_getD_of_not_mem P t _ x hxt]
        by_cases h : P x
        · rw [if_pos h, if_pos h]
          exact getD_set_self cs x _ 0 hlen
        · rw [if_neg h, if_neg h]
      · have hxt : x ∈ t := by
          rcases List.mem_cons.mp hx with h | h
          · exact absurd h hxd
          · exact h
        have hcs1len : x < (if P d then cs.set d (cs.getD d 0 - 1) else cs).length := by
          by_cases h : P d
          · rw [if_pos h]; simpa using hlen
          · rw [if_neg h]; exact hlen
        rw [ih _ x (List.nodup_cons.mp hnd).2 hxt hcs1len]
        by_cases h : P d
        · rw [if_pos h]
          by_cases hPx : P x
          · rw [if_pos hPx, if_pos hPx, getD_set_ne cs d x _ 0 hxd]
          · rw [if_neg hPx, if_neg hPx, getD_set_ne cs d x _ 0 hxd]
        · rw [if_neg h]

/-- Dropping one true position of a duplicate-free list decreases the
filter length by exactly one. -/
theorem filter_length_flip :
    ∀ (l : List Nat) (Pold Pnew : Nat → Bool) (a : Nat), l.Nodup → a ∈ l →
      Pold a = true → Pnew a = false → (∀ x ∈ l, x ≠ a → Pnew x = Pold x) →
      (l.filter Pnew).length + 1 = (l.filter Pold).length := by
  intro l
  induction l with
  | nil => intro _ _ a _ ha; simp at ha
  | cons h tl ih =>
      intro Pold Pnew a hnd ha hP hP' hcong
      rcases List.mem_cons.mp ha with rfl | hatl
      · have hnotl : a ∉ tl := (List.nodup_cons.mp hnd).1
        rw [List.filter_cons, List.filter_cons, hP, hP']
        simp only [if_pos, if_neg, Bool.false_eq_true, if_false, if_true,
          List.length_cons]
        congr 1
        refine congrArg List.length (List.filter_congr ?_)
        intro x hx
        exact hcong x (List.mem_cons_of_mem _ hx)
          (fun hc => hnotl (hc ▸ hx))
      · have hha : h ≠ a := by
          rintro rfl
          exact (List.nodup_cons.mp hnd).1 hatl
        rw [List.filter_cons, List.filter_cons,
          hcong h (List.mem_cons_self _ _) hha]
        by_cases hPh : Pold h = true
        · rw [hPh]
          simp only [if_true, List.length_cons]
          have := ih Pold Pnew a (List.nodup_cons.mp hnd).2 hatl hP hP'
            (fun x hx hxa => hcong x (List.mem_cons_of_mem _ hx) hxa)
          omega
        · rw [Bool.not_eq_true] at hPh
          rw [hPh]
          simp only [Bool.false_eq_true, if_false]
          exact ih Pold Pnew a (List.nodup_cons.mp hnd).2 hatl hP hP'
            (fun x hx hxa => hcong x (List.mem_cons_of_mem _ hx) hxa)

/-- Invariant of every traversal state reachable from `Traversal.new`:
statuses and counters are sized to the topology, the ready queue holds
exactly Ready root-reachable nodes, a non-Pending node has all its
root-reachable predecessors Completed (the readiness guarantee), and the
counter of a Pending root-reachable node counts its not-yet-Completed
root-reachable predecessors. -/
structure TInv (tp : Topology) (t : Traversal) : Prop where
  htopo : t.topology = tp
  status_len : t.status.length = tp.outgoing.length
  counts_len : t.counts.length = tp.outgoing.length
  reach_lt : ∀ x ∈ t.reach, x < tp.outgoing.length
  readyQ_nodup : t.readyQ.Nodup
  readyQ_reach : ∀ x ∈ t.readyQ, x ∈ t.reach
  readyQ_status : ∀ x ∈ t.readyQ, t.status.getD x .pending = .ready
  nonpending_reach : ∀ x, t.status.getD x .pending ≠ .pending → x ∈ t.reach
  key : ∀ x, t.status.getD x .pending ≠ .pending →
    ∀ u, x ∈ tp.outAdj u → u ∈ t.reach →
      t.status.getD u .pending = .completed
  counts_val : ∀ x ∈ t.reach, t.status.getD x .pending = .pending →
    t.counts.getD x 0 = ((tp.incAdj x).filter fun p =>
      t.reach.contains p && !(t.status.getD p .pending == .completed)).length

theorem TInv.status_lt {tp : Topology} {t : Traversal} (hinv : TInv tp t)
    {x : Nat} (h : t.status.getD x .pending ≠ .pending) :
    x < tp.outgoing.length := by
  by_contra hc
  rw [getD_ge _ _ _ (by rw [hinv.status_len]; omega)] at h
  exact h rfl

/-- The invariant holds at `Traversal.new`. -/
theorem tinv_new {T : Type} (g : Graph T) (hwf : WF g) (initial : List Nat) :
    TInv g.topology (Traversal.new g.topology initial) := by
  set tp := g.topology with htp
  set N := tp.outgoing.length with hN
  set R := (List.range N).filter
    (fun n => initial.any fun r => rchB tp.outAdj N r n) with hR
  have hstat : ∀ x, (Traversal.new tp initial).status.getD x .pending =
      if x < N then
        (if R.contains x && (initCount tp R x == 0) then .ready else .pending)
      else .pending := by
    intro x
    show (((List.range N).map fun n =>
      if R.contains n && (initCount tp R n == 0) then NodeState.ready
      else NodeState.pending)).getD x .pending = _
    rw [getD_map_range]
  have hcnts : ∀ x, (Traversal.new tp initial).counts.getD x 0 =
      if x < N then initCount tp R x else 0 := by
    intro x
    show (((List.range N).map fun n => initCount tp R n)).getD x 0 = _
    rw [getD_map_range]
  have hready : (Traversal.new tp initial).readyQ =
      (List.range N).filter
        (fun n => R.contains n && (initCount tp R n == 0)) := rfl
  have hreach : (Traversal.new tp initial).reach = R := rfl
  refine ⟨rfl, by simp [Traversal.new], by simp [Traversal.new], ?_, ?_, ?_,
    ?_, ?_, ?_, ?_⟩
  · intro x hx
    rw [hreach, hR] at hx
    have := List.of_mem_filter hx
    have hmem := List.mem_of_mem_filter hx
    simpa using List.mem_range.mp hmem
  · rw [hready]
    exact (List.nodup_range N).filter _
  · intro x hx
    rw [hready] at hx
    rw [hreach]
    have hcond := List.of_mem_filter hx
    simp only [Bool.and_eq_true] at hcond
    simpa using hcond.1
  · intro x hx
    rw [hready] at hx
    rw [hstat x, if_pos (List.mem_range.mp (List.mem_of_mem_filter hx)),
      if_pos (List.of_mem_filter hx)]
  · intro x hx
    rw [hstat x] at hx
    by_cases hxN : x < N
    · rw [if_pos hxN] at hx
      by_cases hc : (R.contains x && (initCount tp R x == 0)) = true
      · rw [hreach]
        simp only [Bool.and_eq_true] at hc
        simpa using hc.1
      · rw [if_neg hc] at hx
        exact absurd rfl hx
    · rw [if_neg hxN] at hx
      exact absurd rfl hx
  · intro x hx u hxu hu
    exfalso
    rw [hstat x] at hx
    by_cases hxN : x < N
    · rw [if_pos hxN] at hx
      by_cases hc : (R.contains x && (initCount tp R x == 0)) = true
      · simp only [Bool.and_eq_true, beq_iff_eq] at hc
        have hcnt0 := hc.2
        unfold initCount at hcnt0
        have hfil := List.length_eq_zero.mp hcnt0
        have humem : u ∈ tp.incAdj x := (hwf.transpose u x).mp hxu
        have humemf : u ∈ (tp.incAdj x).filter fun p => R.contains p := by
          refine List.mem_filter.mpr ⟨humem, ?_⟩
          rw [hreach] at hu
          simpa using hu
        rw [hfil] at humemf
        simp at humemf
      · rw [if_neg hc] at hx
        exact hx rfl
    · rw [if_neg hxN] at hx
      exact hx rfl
  · intro x hx hpend
    have hxN : x < N := by
      rw [hreach, hR] at hx
      exact List.mem_range.mp (List.mem_of_mem_filter hx)
    rw [hcnts x, if_pos hxN]
    unfold initCount
    rw [hreach]
    refine congrArg List.length (List.filter_congr ?_)
    intro p hp
    have hpnotc : (Traversal.new tp initial).status.getD p .pending ≠
        .completed := by
      rw [hstat p]
      by_cases hpN : p < N
      · rw [if_pos hpN]
        by_cases hc : (R.contains p && (initCount tp R p == 0)) = true
        · rw [if_pos hc]; intro h; cases h
        · rw [if_neg hc]; intro h; cases h
      · rw [if_neg hpN]; intro h; cases h
    have hbeq : ((Traversal.new tp initial).status.getD p .pending ==
        NodeState.completed) = false := beq_eq_false_iff_ne.mpr hpnotc
    rw [hbeq]
    simp

/-- A fresh traversal has no Completed node. -/
theorem new_status_not_completed (tp : Topology) (initial : List Nat)
    (x : Nat) :
    (Traversal.new tp initial).status.getD x .pending ≠ .completed := by
  have hif : ∀ c : Bool,
      (if c then NodeState.ready else NodeState.pending) ≠ .completed := by
    intro c
    cases c
    · intro h; cases h
    · intro h; cases h
  unfold Traversal.new
  simp only []
  rw [getD_map_range]
  by_cases h1 : x < tp.outgoing.length
  · rw [if_pos h1]
    exact hif _
  · rw [if_neg h1]
    intro h
    cases h

/-- `take` preserves the traversal invariant. -/
theorem tinv_take {T : Type} {g : Graph T} (hwf : WF g) {t : Traversal}
    (hinv : TInv g.topology t) {v : Nat} {rest : List Nat}
    (hq : t.readyQ = v :: rest) :
    TInv g.topology
      { t with readyQ := rest, status := t.status.set v .inflight } := by
  have hvmem : v ∈ t.readyQ := by rw [hq]; exact List.mem_cons_self _ _
  have hvready : t.status.getD v .pending = .ready := hinv.readyQ_status v hvmem
  have hvlt : v < t.status.length := by
    rw [hinv.status_len]
    exact hinv.status_lt (by rw [hvready]; intro h; cases h)
  have hvrest : v ∉ rest := by
    have hnd := hinv.readyQ_nodup
    rw [hq] at hnd
    exact (List.nodup_cons.mp hnd).1
  have hstat' : ∀ x, (t.status.set v .inflight).getD x .pending =
      if x = v then .inflight else t.status.getD x .pending := by
    intro x
    by_cases hx : x = v
    · subst hx; rw [if_pos rfl]; exact getD_set_self _ _ _ _ hvlt
    · rw [if_neg hx]; exact getD_set_ne _ _ _ _ _ hx
  refine ⟨hinv.htopo, by simpa using hinv.status_len, hinv.counts_len,
    hinv.reach_lt, ?_, ?_, ?_, ?_, ?_, ?_⟩
  · have hnd := hinv.readyQ_nodup
    rw [hq] at hnd
    exact (List.nodup_cons.mp hnd).2
  · intro x hx
    exact hinv.readyQ_reach x (by rw [hq]; exact List.mem_cons_of_mem _ hx)
  · intro x hx
    have hxv : x ≠ v := by
      intro hc
      subst hc
      exact hvrest hx
    rw [hstat' x, if_neg hxv]
    exact hinv.readyQ_status x (by rw [hq]; exact List.mem_cons_of_mem _ hx)
  · intro x hx
    rw [hstat' x] at hx
    by_cases hxv : x = v
    · subst hxv
      exact hinv.nonpending_reach x (by rw [hvready]; intro h; cases h)
    · rw [if_neg hxv] at hx
      exact hinv.nonpending_reach x hx
  · intro x hx u hxu hu
    have hxold : t.status.getD x .pending ≠ .pending := by
      rw [hstat' x] at hx
      by_cases hxv : x = v
      · subst hxv; rw [hvready]; intro h; cases h
      · rw [if_neg hxv] at hx; exact hx
    have hucomp := hinv.key x hxold u hxu hu
    have huv : u ≠ v := by
      intro hc
      subst hc
      rw [hvready] at hucomp
      cases hucomp
    rw [hstat' u, if_neg huv]
    exact hucomp
  · intro x hx hpend
    rw [hstat' x] at hpend
    by_cases hxv : x = v
    · rw [if_pos hxv] at hpend; cases hpend
    · rw [if_neg hxv] at hpend
      rw [hinv.counts_val x hx hpend]
      refine congrArg List.length (List.filter_congr ?_)
      intro p hp
      show _ = (t.reach.contains p &&
        !((t.status.set v .inflight).getD p .pending == .completed))
      rw [hstat' p]
      by_cases hpv : p = v
      · subst hpv
        rw [if_pos rfl, hvready]
        rfl
      · rw [if_neg hpv]

/-- A successful `complete` is exactly the in-flight transition with the
component updates. -/
theorem complete_ok_eq {t : Traversal} {n : Nat} {t' : Traversal}
    (hok : t.complete n = .ok t') :
    t.status.getD n .pending = .inflight ∧
    t' = { t with
      status := completeStatus t n
      counts := completeCounts t n
      readyQ := t.readyQ ++ completeNewly t n } := by
  unfold Traversal.complete at hok
  by_cases hg : t.status.getD n .pending = .inflight
  · rw [if_pos hg] at hok
    refine ⟨hg, ?_⟩
    cases hok
    rfl
  · rw [if_neg hg] at hok
    cases hok

/-- Status lookup after a successful `complete(n)`. -/
theorem completeStatus_getD {tp : Topology} {t : Traversal}
    (hinv : TInv tp t) {n : Nat}
    (hg : t.status.getD n .pending = .inflight) (x : Nat) :
    (completeStatus t n).getD x .pending =
      if x ∈ completeNewly t n then .ready
      else if x = n then .completed
      else t.status.getD x .pending := by
  have hnlt : n < tp.outgoing.length :=
    hinv.status_lt (by rw [hg]; intro h; cases h)
  unfold completeStatus
  by_cases hx : x ∈ completeNewly t n
  · rw [if_pos hx]
    refine foldl_set_getD_of_mem _ _ _ _ _ ?_ (Or.inl hx)
    have hxlt : x < t.topology.outgoing.length :=
      List.mem_range.mp (List.mem_of_mem_filter hx)
    rw [List.length_set, hinv.status_len, ← hinv.htopo]
    exact hxlt
  · rw [if_neg hx, foldl_set_getD_of_not_mem _ _ _ _ _ hx]
    by_cases hxn : x = n
    · subst hxn
      rw [if_pos rfl]
      exact getD_set_self _ _ _ _ (by rw [hinv.status_len]; exact hnlt)
    · rw [if_neg hxn]
      exact getD_set_ne _ _ _ _ _ hxn

/-- `complete` preserves the traversal invariant. -/
theorem tinv_complete {T : Type} {g : Graph T} (hwf : WF g) {t : Traversal}
    (hinv : TInv g.topology t) {n : Nat} {t' : Traversal}
    (hok : t.complete n = .ok t') : TInv g.topology t' := by
  obtain ⟨hg, rfl⟩ := complete_ok_eq hok
  have htp : t.topology = g.topology := hinv.htopo
  have hnreach : n ∈ t.reach :=
    hinv.nonpending_reach n (by rw [hg]; intro h; cases h)
  have hnlt : n < g.topology.outgoing.length :=
    hinv.status_lt (by rw [hg]; intro h; cases h)
  have hout_nodup : (t.topology.outAdj n).Nodup := by
    rw [htp]; exact hwf.out_nodup n
  have hout_bnd : ∀ d ∈ t.topology.outAdj n, d < g.topology.outgoing.length := by
    rw [htp]
    intro d hd
    have := hwf.out_bnd n d hd
    rw [← hwf.out_len] at this
    exact this
  -- counter characterisation
  have hcnt : ∀ x, (completeCounts t n).getD x 0 =
      if x ∈ t.topology.outAdj n ∧ decGuard t x = true
      then t.counts.getD x 0 - 1 else t.counts.getD x 0 := by
    intro x
    unfold completeCounts
    by_cases hx : x ∈ t.topology.outAdj n
    · have hxlt : x < t.counts.length := by
        rw [hinv.counts_len]; exact hout_bnd x hx
      rw [foldl_dec_getD (decGuard t) _ _ _ hout_nodup hx hxlt]
      by_cases hP : decGuard t x = true
      · rw [if_pos hP, if_pos ⟨hx, hP⟩]
      · rw [if_neg hP, if_neg (fun hc => hP hc.2)]
    · rw [foldl_dec_getD_of_not_mem (decGuard t) _ _ _ hx,
        if_neg (fun hc => hx hc.1)]
  -- newly-ready characterisation
  have hnewly : ∀ d, d ∈ completeNewly t n ↔
      d < g.topology.outgoing.length ∧ d ∈ t.topology.outAdj n ∧
      d ∈ t.reach ∧ t.status.getD d .pending = .pending ∧
      (completeCounts t n).getD d 0 = 0 := by
    intro d
    unfold completeNewly
    rw [List.mem_filter, List.mem_range, htp]
    simp only [Bool.and_eq_true, beq_iff_eq]
    constructor
    · rintro ⟨h1, ⟨⟨h2, h3⟩, h4⟩, h5⟩
      exact ⟨h1, by simpa using h2, by simpa using h3, h4, h5⟩
    · rintro ⟨h1, h2, h3, h4, h5⟩
      exact ⟨h1, ⟨⟨by simpa using h2, by simpa using h3⟩, h4⟩, h5⟩
  have hn_not_newly : n ∉ completeNewly t n := by
    intro hc
    have := ((hnewly n).mp hc).2.2.2.1
    rw [hg] at this
    cases this
  -- status characterisation
  have hsts : ∀ x, (completeStatus t n).getD x .pending =
      if x ∈ completeNewly t n then .ready
      else if x = n then .completed
      else t.status.getD x .pending := completeStatus_getD hinv hg
  have hnewly_nodup : (completeNewly t n).Nodup :=
    (List.nodup_range _).filter _
  refine ⟨htp, ?_, ?_, hinv.reach_lt, ?_, ?_, ?_, ?_, ?_, ?_⟩
  · show (completeStatus t n).length = _
    unfold completeStatus
    rw [foldl_set_length, List.length_set]
    exact hinv.status_len
  · show (completeCounts t n).length = _
    unfold completeCounts
    rw [foldl_dec_length]
    exact hinv.counts_len
  · rw [List.nodup_append]
    refine ⟨hinv.readyQ_nodup, hnewly_nodup, ?_⟩
    intro x hx hx'
    have hready := hinv.readyQ_status x hx
    have hpend := ((hnewly x).mp hx').2.2.2.1
    rw [hready] at hpend
    cases hpend
  · intro x hx
    rcases List.mem_append.mp hx with hx | hx
    · exact hinv.readyQ_reach x hx
    · exact ((hnewly x).mp hx).2.2.1
  · intro x hx
    have hx2 : x ∈ t.readyQ ++ completeNewly t n := hx
    show (completeStatus t n).getD x .pending = .ready
    rw [hsts x]
    rcases List.mem_append.mp hx2 with hx | hx
    · have hready := hinv.readyQ_status x hx
      have hxnew : x ∉ completeNewly t n := by
        intro hc
        have hpend := ((hnewly x).mp hc).2.2.2.1
        rw [hready] at hpend
        cases hpend
      have hxn : x ≠ n := by
        intro hc
        subst hc
        rw [hg] at hready
        cases hready
      rw [if_neg hxnew, if_neg hxn]
      exact hready
    · rw [if_pos hx]
  · intro x hx
    have hx' : (completeStatus t n).getD x .pending ≠ .pending := hx
    rw [hsts x] at hx'
    show x ∈ t.reach
    by_cases h1 : x ∈ completeNewly t n
    · exact ((hnewly x).mp h1).2.2.1
    · rw [if_neg h1] at hx'
      by_cases h2 : x = n
      · subst h2; exact hnreach
      · rw [if_neg h2] at hx'
        exact hinv.nonpending_reach x hx'
  · -- the readiness guarantee
    intro x hx u hxu hu
    have hx' : (completeStatus t n).getD x .pending ≠ .pending := hx
    have hu' : u ∈ t.reach := hu
    rw [hsts x] at hx'
    show (completeStatus t n).getD u .pending = .completed
    rw [hsts u]
    by_cases hxnew : x ∈ completeNewly t n
    · -- x just became ready: its single remaining predecessor was n
      obtain ⟨hxlt, hxout, hxreach, hxpend, hxcnt⟩ := (hnewly x).mp hxnew
      have hcv := hinv.counts_val x hxreach hxpend
      have hguard : decGuard t x = true := by
        simp only [decGuard, Bool.and_eq_true, beq_iff_eq]
        exact ⟨by simpa using hxreach, hxpend⟩
      rw [hcnt x, if_pos ⟨hxout, hguard⟩, hcv] at hxcnt
      have hxoutg : x ∈ g.topology.outAdj n := by
        rw [← htp]; exact hxout
      have hninc : n ∈ g.topology.incAdj x := (hwf.transpose n x).mp hxoutg
      have hnfil : n ∈ (g.topology.incAdj x).filter fun p =>
          t.reach.contains p && !(t.status.getD p .pending == .completed) := by
        refine List.mem_filter.mpr ⟨hninc, ?_⟩
        simp only [Bool.and_eq_true, Bool.not_eq_true']
        refine ⟨by simpa using hnreach, ?_⟩
        rw [beq_eq_false_iff_ne]
        rw [hg]
        intro h
        cases h
      have hlen1 : ((g.topology.incAdj x).filter fun p =>
          t.reach.contains p && !(t.status.getD p .pending == .completed)).length = 1 := by
        have hge1 : 0 < ((g.topology.incAdj x).filter fun p =>
            t.reach.contains p && !(t.status.getD p .pending == .completed)).length :=
          List.length_pos.mpr (List.ne_nil_of_mem hnfil)
        omega
      obtain ⟨a, ha⟩ := List.length_eq_one.mp hlen1
      have hna : n = a := by
        have := hnfil
        rw [ha] at this
        simpa using this
      subst hna
      -- u is a reach-predecessor of x: either completed already or u = n
      by_cases hucomp : t.status.getD u .pending = .completed
      · have hunew : u ∉ completeNewly t n := by
          intro hc
          have hpend := ((hnewly u).mp hc).2.2.2.1
          rw [hucomp] at hpend
          cases hpend
        have hune : u ≠ n := by
          intro hc
          subst hc
          rw [hg] at hucomp
          cases hucomp
        rw [if_neg hunew, if_neg hune]
        exact hucomp
      · have huinc : u ∈ g.topology.incAdj x := (hwf.transpose u x).mp hxu
        have hufil : u ∈ (g.topology.incAdj x).filter fun p =>
            t.reach.contains p && !(t.status.getD p .pending == .completed) := by
          refine List.mem_filter.mpr ⟨huinc, ?_⟩
          simp only [Bool.and_eq_true, Bool.not_eq_true']
          exact ⟨by simpa using hu', beq_eq_false_iff_ne.mpr hucomp⟩
        have hun : u = n := by
          rw [ha] at hufil
          simpa using hufil
        subst hun
        rw [if_neg hn_not_newly, if_pos rfl]
    · rw [if_neg hxnew] at hx'
      by_cases hxn : x = n
      · -- x = n was in flight: its reach-predecessors were already completed
        have hucomp := hinv.key x (by rw [hxn, hg]; intro h; cases h) u hxu hu'
        have hunew : u ∉ completeNewly t n := by
          intro hc
          have hpend := ((hnewly u).mp hc).2.2.2.1
          rw [hucomp] at hpend
          cases hpend
        have hune : u ≠ n := by
          intro hc
          subst hc
          rw [hg] at hucomp
          cases hucomp
        rw [if_neg hunew, if_neg hune]
        exact hucomp
      · rw [if_neg hxn] at hx'
        have hucomp := hinv.key x hx' u hxu hu'
        have hunew : u ∉ completeNewly t n := by
          intro hc
          have hpend := ((hnewly u).mp hc).2.2.2.1
          rw [hucomp] at hpend
          cases hpend
        have hune : u ≠ n := by
          intro hc
          subst hc
          rw [hg] at hucomp
          cases hucomp
        rw [if_neg hunew, if_neg hune]
        exact hucomp
  · -- counter correctness
    intro x hx hpend
    have hx' : x ∈ t.reach := hx
    show (completeCounts t n).getD x 0 =
      ((g.topology.incAdj x).filter fun p => t.reach.contains p &&
        !((completeStatus t n).getD p .pending == .completed)).length
    rw [hsts x] at hpend
    by_cases h1 : x ∈ completeNewly t n
    · rw [if_pos h1] at hpend; cases hpend
    · rw [if_neg h1] at hpend
      by_cases h2 : x = n
      · rw [if_pos h2] at hpend; cases hpend
      · rw [if_neg h2] at hpend
        have hcv := hinv.counts_val x hx' hpend
        have hagree : ∀ p ∈ g.topology.incAdj x, p ≠ n →
            (t.reach.contains p &&
              !((completeStatus t n).getD p .pending == .completed)) =
            (t.reach.contains p &&
              !(t.status.getD p .pending == .completed)) := by
          intro p hp hpn
          rw [hsts p]
          by_cases hpnew : p ∈ completeNewly t n
          · rw [if_pos hpnew]
            have hppend := ((hnewly p).mp hpnew).2.2.2.1
            rw [hppend]
            rfl
          · rw [if_neg hpnew, if_neg hpn]
        by_cases hxout : x ∈ t.topology.outAdj n
        · -- the counter drops by one together with the filter
          have hxoutg : x ∈ g.topology.outAdj n := by
            rw [← htp]; exact hxout
          have hninc : n ∈ g.topology.incAdj x := (hwf.transpose n x).mp hxoutg
          have hguard : decGuard t x = true := by
            simp only [decGuard, Bool.and_eq_true, beq_iff_eq]
            exact ⟨by simpa using hx', hpend⟩
          rw [hcnt x, if_pos ⟨hxout, hguard⟩, hcv]
          have hflip := filter_length_flip (g.topology.incAdj x)
            (fun p => t.reach.contains p &&
              !(t.status.getD p .pending == .completed))
            (fun p => t.reach.contains p &&
              !((completeStatus t n).getD p .pending == .completed))
            n (hwf.inc_nodup x) hninc
            (by
              simp only [Bool.and_eq_true, Bool.not_eq_true']
              refine ⟨by simpa using hnreach, ?_⟩
              rw [beq_eq_false_iff_ne, hg]
              intro h
              cases h)
            (by
              show (t.reach.contains n &&
                !((completeStatus t n).getD n .pending == .completed)) = false
              rw [hsts n, if_neg hn_not_newly, if_pos rfl]
              simp)
            (fun p hp hpn => hagree p hp hpn)
          omega
        · -- the counter and the filter are both unchanged
          have hninc : n ∉ g.topology.incAdj x := by
            intro hc
            have h2 := (hwf.transpose n x).mpr hc
            have h3 : x ∈ t.topology.outAdj n := by
              rw [htp]; exact h2
            exact hxout h3
          rw [hcnt x, if_neg (fun hc => hxout hc.1), hcv]
          refine congrArg List.length (List.filter_congr ?_).symm
          intro p hp
          exact hagree p hp (fun hc => hninc (hc ▸ hp))

theorem take_nil {t : Traversal} (h : t.readyQ = []) : t.take = (none, t) := by
  unfold Traversal.take
  rw [h]

theorem take_cons {t : Traversal} {v : Nat} {rest : List Nat}
    (h : t.readyQ = v :: rest) :
    t.take = (some v,
      { t with readyQ := rest, status := t.status.set v .inflight }) := by
  unfold Traversal.take
  rw [h]

/-- Every driver call preserves the invariant and the reach set. -/
theorem tinv_step {T : Type} {g : Graph T} (hwf : WF g) {t : Traversal}
    (hinv : TInv g.topology t) (op : TravOp) :
    TInv g.topology (stepOp t op).1 ∧ (stepOp t op).1.reach = t.reach := by
  cases op with
  | take =>
      match hq : t.readyQ with
      | [] =>
          rw [show (stepOp t .take).1 = (t.take).2 from rfl, take_nil hq]
          exact ⟨hinv, rfl⟩
      | v :: rest =>
          rw [show (stepOp t .take).1 = (t.take).2 from rfl, take_cons hq]
          exact ⟨tinv_take hwf hinv hq, rfl⟩
  | complete n =>
      cases hcm : t.complete n with
      | ok t2 =>
          have hstep1 : (stepOp t (.complete n)).1 = t2 := by
            show (match t.complete n with
              | .ok t' => (t', TravEv.completedOk n)
              | .error _ => (t, TravEv.completedErr n)).1 = t2
            rw [hcm]
          rw [hstep1]
          refine ⟨tinv_complete hwf hinv hcm, ?_⟩
          obtain ⟨-, rfl⟩ := complete_ok_eq hcm
          rfl
      | error e =>
          have hstep1 : (stepOp t (.complete n)).1 = t := by
            show (match t.complete n with
              | .ok t' => (t', TravEv.completedOk n)
              | .error _ => (t, TravEv.completedErr n)).1 = t
            rw [hcm]
          rw [hstep1]
          exact ⟨hinv, rfl⟩

/-- A node is observed Completed only if it was already Completed or the
very call was its successful `complete`. -/
theorem step_completed_source {T : Type} {g : Graph T} (hwf : WF g)
    {t : Traversal} (hinv : TInv g.topology t) (op : TravOp) (x : Nat)
    (hc : (stepOp t op).1.status.getD x .pending = .completed) :
    t.status.getD x .pending = .completed ∨
      (stepOp t op).2 = .completedOk x := by
  cases op with
  | take =>
      left
      match hq : t.readyQ with
      | [] =>
          rw [show (stepOp t .take).1 = (t.take).2 from rfl, take_nil hq] at hc
          exact hc
      | v :: rest =>
          rw [show (stepOp t .take).1 = (t.take).2 from rfl, take_cons hq] at hc
          have hc' : (t.status.set v .inflight).getD x .pending = .completed := hc
          by_cases hxv : x = v
          · subst hxv
            have hvready := hinv.readyQ_status x
              (by rw [hq]; exact List.mem_cons_self _ _)
            have hvlt : x < t.status.length := by
              rw [hinv.status_len]
              exact hinv.status_lt (by rw [hvready]; intro h; cases h)
            rw [getD_set_self _ _ _ _ hvlt] at hc'
            cases hc'
          · rw [getD_set_ne _ _ _ _ _ hxv] at hc'
            exact hc'
  | complete n =>
      cases hcm : t.complete n with
      | ok t2 =>
          have hstep1 : (stepOp t (.complete n)).1 = t2 := by
            show (match t.complete n with
              | .ok t' => (t', TravEv.completedOk n)
              | .error _ => (t, TravEv.completedErr n)).1 = t2
            rw [hcm]
          have hstep2 : (stepOp t (.complete n)).2 = .completedOk n := by
            show (match t.complete n with
              | .ok t' => (t', TravEv.completedOk n)
              | .error _ => (t, TravEv.completedErr n)).2 = TravEv.completedOk n
            rw [hcm]
          obtain ⟨hg, rfl⟩ := complete_ok_eq hcm
          rw [hstep1] at hc
          have hc' : (completeStatus t n).getD x .pending = .completed := hc
          rw [completeStatus_getD hinv hg x] at hc'
          by_cases h1 : x ∈ completeNewly t n
          · rw [if_pos h1] at hc'
            cases hc'
          · rw [if_neg h1] at hc'
            by_cases h2 : x = n
            · subst h2
              right
              rw [hstep2]
            · rw [if_neg h2] at hc'
              exact Or.inl hc'
      | error e =>
          have hstep1 : (stepOp t (.complete n)).1 = t := by
            show (match t.complete n with
              | .ok t' => (t', TravEv.completedOk n)
              | .error _ => (t, TravEv.completedErr n)).1 = t
            rw [hcm]
          rw [hstep1] at hc
          exact Or.inl hc

/-- Trace induction: whenever a `take` returns `v`, every root-reachable
predecessor `u` of `v` was Completed beforehand, either already at the start
of the run or by a successful `complete(u)` event earlier in the run. -/
theorem runOps_key {T : Type} {g : Graph T} (hwf : WF g) {u v : Nat}
    (hedge : v ∈ g.topology.outAdj u) :
    ∀ (ops : List TravOp) (t : Traversal), TInv g.topology t → u ∈ t.reach →
      ∀ i, (runOps t ops).get? i = some (.took (some v)) →
        t.status.getD u .pending = .completed ∨
        ∃ j < i, (runOps t ops).get? j = some (.completedOk u) := by
  intro ops
  induction ops with
  | nil =>
      intro t _ _ i h
      simp [runOps] at h
  | cons op ops ih =>
      intro t hinv hu i h
      match i with
      | 0 =>
          have hev : (stepOp t op).2 = .took (some v) := by
            simpa [runOps] using h
          left
          cases op with
          | take =>
              match hq : t.readyQ with
              | [] =>
                  rw [show (stepOp t .take).2 = .took (t.take).1 from rfl,
                    take_nil hq] at hev
                  simp at hev
              | w :: rest =>
                  rw [show (stepOp t .take).2 = .took (t.take).1 from rfl,
                    take_cons hq] at hev
                  have hwv : w = v := by
                    have : some w = some v := by
                      injection hev
                    injection this
                  subst hwv
                  have hvready := hinv.readyQ_status w
                    (by rw [hq]; exact List.mem_cons_self _ _)
                  exact hinv.key w (by rw [hvready]; intro hh; cases hh)
                    u hedge hu
          | complete m =>
              exfalso
              cases hcm : t.complete m with
              | ok t2 =>
                  have hstep2 : (stepOp t (.complete m)).2 = .completedOk m := by
                    show (match t.complete m with
                      | .ok t' => (t', TravEv.completedOk m)
                      | .error _ => (t, TravEv.completedErr m)).2 =
                        TravEv.completedOk m
                    rw [hcm]
                  rw [hstep2] at hev
                  cases hev
              | error e =>
                  have hstep2 : (stepOp t (.complete m)).2 = .completedErr m := by
                    show (match t.complete m with
                      | .ok t' => (t', TravEv.completedOk m)
                      | .error _ => (t, TravEv.completedErr m)).2 =
                        TravEv.completedErr m
                    rw [hcm]
                  rw [hstep2] at hev
                  cases hev
      | i + 1 =>
          have hinv' := (tinv_step hwf hinv op).1
          have hreach' := (tinv_step hwf hinv op).2
          have h' : (runOps (stepOp t op).1 ops).get? i =
              some (.took (some v)) := by
            simpa [runOps] using h
          rcases ih (stepOp t op).1 hinv' (by rw [hreach']; exact hu) i h'
            with hcomp | ⟨j, hj, hje⟩
          · rcases step_completed_source hwf hinv op u hcomp with h0 | hev
            · exact Or.inl h0
            · right
              refine ⟨0, by omega, ?_⟩
              simpa [runOps] using hev
          · right
            refine ⟨j + 1, by omega, ?_⟩
            simpa [runOps] using hje

/-- Claim C2: in every sequence of `take`/`complete` calls on a traversal
of a built graph, for every edge `(u, v)` with `u` reachable from the root
set, a `take` that returns `v` occurs only after a successful
`complete(u)`. -/
theorem traversal_pred_completed_before_take {T : Type} (g : Graph T)
    (initial : List Nat) (ops : List TravOp) (u v i : Nat)
    (hwf : WF g) (hacy : Acyclic g)
    (hroots : ∀ r ∈ initial, r < g.len)
    (hedge : v ∈ g.out u)
    (hu : ∃ r ∈ initial, Reach g.out r u)
    (htake : (runOps (Traversal.new g.topology initial) ops).get? i =
      some (.took (some v))) :
    ∃ j < i, (runOps (Traversal.new g.topology initial) ops).get? j =
      some (.completedOk u) := by
  have hinv := tinv_new g hwf initial
  have hult : u < g.topology.outgoing.length := by
    by_contra hc
    have hnil : g.out u = [] :=
      Graph.out_eq_nil_of_ge hwf.out_len (by rw [← hwf.out_len]; omega)
    rw [hnil] at hedge
    simp at hedge
  have hbnd : BndS g.topology.outAdj g.topology.outgoing.length := by
    intro a b hb
    have hb' : b < g.len := hwf.out_bnd a b hb
    rw [hwf.out_len]
    exact hb'
  have hureach : u ∈ (Traversal.new g.topology initial).reach := by
    show u ∈ (List.range g.topology.outgoing.length).filter _
    refine List.mem_filter.mpr ⟨List.mem_range.mpr hult, ?_⟩
    obtain ⟨r, hr, hru⟩ := hu
    simp only [List.any_eq_true]
    refine ⟨r, hr, ?_⟩
    refine (@reach_iff_rchB _ g.topology.outgoing.length _ _ hacy hbnd ?_).mp hru
    rw [hwf.out_len]
    exact hroots r hr
  rcases runOps_key hwf hedge ops (Traversal.new g.topology initial) hinv
    hureach i htake with hcomp | hfound
  · exact absurd hcomp (new_status_not_completed g.topology initial u)
  · exact hfound

/-- The two-node graph with the single edge `0 → 1`. -/
def gLine : Graph Unit := ⟨[(), ()], ⟨[[1], []], [[], [0]], []⟩⟩

/-- Witness for C2: on the graph `0 → 1` seeded with `[0]` and driven by
`take; complete 0; take`, the third event is `take` returning `1`, and the
theorem produces the earlier successful `complete(0)`. -/
theorem traversal_pred_completed_before_take_witness :
    ∃ j < 2, (runOps (Traversal.new gLine.topology [0])
      [.take, .complete 0, .take]).get? j = some (.completedOk 0) :=
  traversal_pred_completed_before_take gLine [0] [.take, .complete 0, .take]
    0 1 2 (wf_of_wfCheck (by decide))
    (acyclic_of_rank_check gLine (fun n => n) (by decide) (by decide))
    (by decide) (by decide) ⟨0, by decide, ⟨0, RIn.refl 0⟩⟩ (by decide)

end Zrx
